import Mathlib

/-!
Verification development for the LuminS directory mirroring tool.

The repository ships only `src/main.rs` (the CLI entry point and its
integration tests); the core modules `lumins::core`, `lumins::file_ops` and
`lumins::parse` that `main` calls are not part of the source tree given to us.
Following the specification document, those components are modelled here
directly from the spec's words: trees are finite maps from relative paths to
entries, the Change Detector / Tree Walker produce a `SyncPlan` of `Action`s,
and the Execution Scheduler folds the plan over a filesystem state,
aggregating per-action failures without aborting.
-/

set_option maxHeartbeats 1000000

namespace LuminS

/-- Relative path of a filesystem entry, as the list of its components. -/
abbrev Path := List String

/-- Kind of a non-directory entry: plain file or symbolic link. -/
inductive EntryKind where
  | file
  | symlink
deriving DecidableEq, Repr

/-- Modelled from the spec: `FileSystemEntry` data for a non-directory entry —
size, last-modified timestamp, and content (from which the optional digest is
computed).  The content is a byte list. -/
structure FileData where
  kind : EntryKind
  size : Nat
  mtime : Nat
  content : List Nat
deriving DecidableEq, Repr

/-- A node of a tree snapshot: a directory, or a file/symlink with data. -/
inductive Node where
  | dirNode
  | leafNode (d : FileData)
deriving DecidableEq, Repr

/-- Modelled from the spec: a tree snapshot is the finite map from relative
paths to entries, represented as an association list.  The root directory
itself is implicit (paths are nonempty in well-formed snapshots). -/
abbrev Snapshot := List (Path × Node)

/-- Look a path up in a snapshot (first binding wins). -/
def findE : Snapshot → Path → Option Node
  | [], _ => none
  | e :: rest, p => if e.1 = p then some e.2 else findE rest p

/-- Boolean test that `p` is a (not necessarily strict) component-wise
path prefix of `q`. -/
def isPre : Path → Path → Bool
  | [], _ => true
  | _ :: _, [] => false
  | a :: as, b :: bs => a = b && isPre as bs

/-- Keys of a snapshot. -/
def keysOf (s : Snapshot) : List Path := s.map Prod.fst

/-- Remove every binding of path `p` from a snapshot. -/
def removeP : Snapshot → Path → Snapshot
  | [], _ => []
  | e :: rest, p => if e.1 = p then removeP rest p else e :: removeP rest p

/-- Does the snapshot contain an entry strictly below path `p`? -/
def hasStrictExt : Snapshot → Path → Bool
  | [], _ => false
  | e :: rest, p => (isPre p e.1 && decide (p ≠ e.1)) || hasStrictExt rest p

/-- Modelled from the spec: the state of the destination filesystem during
execution — whether the destination root directory itself exists, plus the
map of entries below it. -/
structure FsState where
  rootExists : Bool
  entries : Snapshot
deriving Repr

/-- Look a path up in the entries of a filesystem state. -/
def look (t : FsState) (p : Path) : Option Node := findE t.entries p

/-- Modelled from the spec: `Action` — tagged variant MakeDirectory(dest),
CopyFile(src,dest), DeletePath(path), Skip.  Source and destination relative
paths coincide, so one path is carried; `copyFile` also carries the source
snapshot's file data, enough context to execute independently of the walk. -/
inductive Action where
  | makeDirectory (p : Path)
  | copyFile (p : Path) (d : FileData)
  | deletePath (p : Path)
  | skip
deriving DecidableEq, Repr

/-- Modelled from the spec: a SyncPlan is the ordered collection of actions
for one run. -/
abbrev SyncPlan := List Action

/-- Path targeted by an action (the empty path for `skip`). -/
def actionPath : Action → Path
  | .makeDirectory p => p
  | .copyFile p _ => p
  | .deletePath p => p
  | .skip => []

/-- Depth (number of components) of the path an action targets. -/
def actionDepth (a : Action) : Nat := (actionPath a).length

/-- Parent-directory existence check used by the Copy Engine: the parent of a
depth-one path is the destination root. -/
def parentOkay (t : FsState) (p : Path) : Bool :=
  if p.dropLast = [] then t.rootExists
  else decide (findE t.entries p.dropLast = some Node.dirNode)

/-- Modelled from the spec: the Copy Engine and Delete Engine executing one
action.  MakeDirectory creates a directory (idempotent if it already exists);
CopyFile writes the file, overwriting an existing destination file; DeletePath
removes a single file, symlink or now-empty directory.  Fallible operations
return an error message instead of a new state. -/
def applyAction (t : FsState) (a : Action) : Except String FsState :=
  match a with
  | .skip => .ok t
  | .makeDirectory p =>
    if p = [] then .ok { t with rootExists := true }
    else
      match findE t.entries p with
      | some .dirNode => .ok t
      | some (.leafNode _) => .error "cannot create directory over a file"
      | none =>
        if parentOkay t p then .ok { t with entries := (p, Node.dirNode) :: t.entries }
        else .error "parent directory missing"
  | .copyFile p d =>
    if p = [] then .error "cannot copy onto the root"
    else
      match findE t.entries p with
      | some .dirNode => .error "cannot copy a file over a directory"
      | _ =>
        if parentOkay t p then
          .ok { t with entries := (p, Node.leafNode d) :: removeP t.entries p }
        else .error "parent directory missing"
  | .deletePath p =>
    if p = [] then
      if t.rootExists && t.entries.isEmpty then .ok { rootExists := false, entries := [] }
      else .error "cannot remove root"
    else
      match findE t.entries p with
      | none => .error "no such path"
      | some (.leafNode _) => .ok { t with entries := removeP t.entries p }
      | some .dirNode =>
        if hasStrictExt t.entries p then .error "directory not empty"
        else .ok { t with entries := removeP t.entries p }

/-- State transformer of one scheduler step: a failing action leaves the
state unchanged (best-effort execution). -/
def stepState (t : FsState) (a : Action) : FsState :=
  match applyAction t a with
  | .ok t' => t'
  | .error _ => t

/-- Modelled from the spec: the Execution Scheduler's sequential mode —
actions run one at a time in plan order; a failure is recorded and execution
continues with the next action. -/
def runState (t : FsState) (plan : List Action) : FsState :=
  plan.foldl stepState t

/-- Failures collected by the scheduler: every failed action is recorded
against its path together with the cause, and never halts later actions. -/
def runFails : FsState → List Action → List (Path × String)
  | _, [] => []
  | t, a :: rest =>
    match applyAction t a with
    | .ok t' => runFails t' rest
    | .error e => (actionPath a, e) :: runFails t rest

/-- Modelled from the spec: `RunResult` — success, or a failure report
listing every failed path with its cause. -/
inductive RunResult where
  | success
  | failure (fails : List (Path × String))
deriving DecidableEq, Repr

/-- Result aggregation: success exactly when no action failed. -/
def runResult (t : FsState) (plan : List Action) : RunResult :=
  if runFails t plan = [] then .success else .failure (runFails t plan)

/-- Modelled from the spec: the Execution Scheduler's parallel mode runs the
plan as dependency-respecting waves; all actions of one wave complete before
the next wave is dispatched.  The state after running a given wave list. -/
def runWavesState (t : FsState) (ws : List (List Action)) : FsState :=
  ws.foldl runState t

/-- Modelled from the spec: `ComparisonStrategy` — Metadata (size+timestamp
equality implies unchanged) or Secure (content digest equality implies
unchanged, timestamp ignored). -/
inductive ComparisonStrategy where
  | metadata
  | secure
deriving DecidableEq, Repr

/-- Content digest used by the Secure strategy, modelled as an injective
function of the content. -/
def digest (c : List Nat) : List Nat := c

/-- Change test for two correlated files of the same kind: under Metadata,
unchanged means size and modified-time both match; under Secure, unchanged
means the content digests are equal and the timestamp is never consulted. -/
def unchangedFiles (strat : ComparisonStrategy) (s d : FileData) : Bool :=
  match strat with
  | .metadata => decide (s.size = d.size) && decide (s.mtime = d.mtime)
  | .secure => decide (digest s.content = digest d.content)

/-- Action creating the source node `n` at destination path `p`. -/
def createActionFor (p : Path) (n : Node) : Action :=
  match n with
  | .dirNode => .makeDirectory p
  | .leafNode d => .copyFile p d

/-- Modelled from the spec: the Change Detector.  Given the correlated pair of
entries at relative path `p` (either side optional), the comparison strategy
and the deletion-eligibility flag (is this run allowed to delete
destination-only paths), it decides the required actions: one action, except
that a kind mismatch is delete-then-recreate (two actions). -/
def detect (p : Path) (src dst : Option Node) (strat : ComparisonStrategy)
    (deletionEligible : Bool) : List Action :=
  match src, dst with
  | none, none => []
  | some n, none => [createActionFor p n]
  | none, some _ => if deletionEligible then [.deletePath p] else [.skip]
  | some .dirNode, some .dirNode => [.skip]
  | some (.leafNode s), some (.leafNode d) =>
    if s.kind = d.kind then
      if unchangedFiles strat s d then [.skip] else [.copyFile p s]
    else [.deletePath p, .copyFile p s]
  | some n, some _ => [.deletePath p, createActionFor p n]

/-- Remove duplicate paths from a list, keeping the last occurrence. -/
def dedupPaths : List Path → List Path
  | [] => []
  | p :: rest => if p ∈ rest then dedupPaths rest else p :: dedupPaths rest

/-- All relative paths present on either side of the comparison. -/
def allPaths (src dst : Snapshot) : List Path :=
  dedupPaths (keysOf src ++ keysOf dst)

/-- Modelled from the spec: the Tree Walker correlates source and destination
by relative path and asks the Change Detector for the required actions of
every correlated pair. -/
def rawActions (src dst : Snapshot) (strat : ComparisonStrategy)
    (deletionEligible : Bool) : List Action :=
  ((allPaths src dst).map
    (fun p => detect p (findE src p) (findE dst p) strat deletionEligible)).flatten

/-- Boolean discriminators for the four action shapes. -/
def isDeleteA : Action → Bool
  | .deletePath _ => true
  | _ => false

def isMkdirA : Action → Bool
  | .makeDirectory _ => true
  | _ => false

def isCopyA : Action → Bool
  | .copyFile _ _ => true
  | _ => false

def isSkipA : Action → Bool
  | .skip => true
  | _ => false

/-- Largest depth of any action path in a list. -/
def maxDepth (acts : List Action) : Nat :=
  acts.foldr (fun a m => max (actionDepth a) m) 0

/-- Modelled from the spec: dependency waves of the plan's deletions —
post-order, so one wave per depth from the deepest up (children strictly
before their parent directory). -/
def deleteWaves (acts : List Action) : List (List Action) :=
  (List.range (maxDepth acts + 1)).reverse.map
    (fun d => acts.filter (fun a => isDeleteA a && decide (actionDepth a = d)))

/-- Modelled from the spec: dependency waves of the plan's directory
creations — one wave per depth from the shallowest down, so a directory is
created strictly before anything inside it. -/
def mkdirWaves (acts : List Action) : List (List Action) :=
  (List.range (maxDepth acts + 1)).map
    (fun d => acts.filter (fun a => isMkdirA a && decide (actionDepth a = d)))

/-- Modelled from the spec: the dependency-wave decomposition of a plan:
deletions post-order first, then directory creations root-down, then the file
copies (mutually independent once every directory exists), then skips. -/
def wavesOf (acts : List Action) : List (List Action) :=
  deleteWaves acts ++ mkdirWaves acts ++ [acts.filter isCopyA] ++ [acts.filter isSkipA]

/-- Waves of the plan the Tree Walker produces for one synchronize/copy run. -/
def syncWaves (src dst : Snapshot) (strat : ComparisonStrategy)
    (deletionEligible : Bool) : List (List Action) :=
  wavesOf (rawActions src dst strat deletionEligible)

/-- Modelled from the spec: the ordered SyncPlan for one synchronize/copy
run, honoring the ordering invariants (directory creations before their
contents, deletions strictly post-order, a mismatched path's deletion before
its recreation). -/
def syncPlan (src dst : Snapshot) (strat : ComparisonStrategy)
    (deletionEligible : Bool) : SyncPlan :=
  (syncWaves src dst strat deletionEligible).flatten

/-- Modelled from the spec: waves of the Delete command's plan — post-order
DeletePath actions for every entry under the destination, plus the
destination root itself last. -/
def deleteAllWaves (t : FsState) : List (List Action) :=
  deleteWaves ((keysOf t.entries).map Action.deletePath) ++ [[Action.deletePath []]]

/-- The ordered plan of the Delete command. -/
def deleteAllPlan (t : FsState) : SyncPlan := (deleteAllWaves t).flatten

/-- Modelled from the spec: `Flags` — orthogonal booleans resolved before the
core runs. -/
inductive Flag where
  | verbose
  | secure
  | sequential
  | noDelete
deriving DecidableEq, Repr

/-- Strategy selected by the flag set: Secure when the secure flag is
present, Metadata otherwise. -/
def strategyOf (flags : List Flag) : ComparisonStrategy :=
  if Flag.secure ∈ flags then .secure else .metadata

namespace core

/-- Modelled from the spec: `copy(src, dest, flags)` builds a plan with
deletion ineligible and executes it, returning the final destination state
and the aggregated failures. -/
def copy (src : Snapshot) (dst : FsState) (flags : List Flag) :
    FsState × List (Path × String) :=
  let plan := syncPlan src dst.entries (strategyOf flags) false
  (runState dst plan, runFails dst plan)

/-- Modelled from the spec: `synchronize(src, dest, flags)` builds a plan
with deletion eligible unless NoDelete is set, and executes it. -/
def synchronize (src : Snapshot) (dst : FsState) (flags : List Flag) :
    FsState × List (Path × String) :=
  let elig : Bool := if Flag.noDelete ∈ flags then false else true
  let plan := syncPlan src dst.entries (strategyOf flags) elig
  (runState dst plan, runFails dst plan)

/-- Modelled from the spec: `delete(dest, flags)` builds a plan consisting
solely of post-order DeletePath actions for every entry under dest, plus dest
itself, and executes it. -/
def delete (dst : FsState) (_flags : List Flag) :
    FsState × List (Path × String) :=
  (runState dst (deleteAllPlan dst), runFails dst (deleteAllPlan dst))

end core

/-- Subcommand kinds of the CLI, as in `main.rs`. -/
inductive SubCommandType where
  | copy
  | delete
  | synchronize
deriving DecidableEq, Repr

/-- Parsed subcommand, as consumed by `main`: the kind, an optional source
path name (absent for Delete) and the destination path name. -/
structure SubCommand where
  sub_command_type : SubCommandType
  src : Option String
  dest : String
deriving DecidableEq, Repr

/-- Raw command-line input before validation: the chosen subcommand (none
when no subcommand was given), its positional path arguments, and the flags. -/
structure RawArgs where
  command : Option SubCommandType
  paths : List String
  flagSet : List Flag
deriving DecidableEq, Repr

/-- A world of named top-level trees, used to resolve and check the path
arguments; names map to filesystem states. -/
abbrev World := List (String × FsState)

/-- Look up a named tree in the world. -/
def lookupW : World → String → Option FsState
  | [], _ => none
  | e :: rest, s => if e.1 = s then some e.2 else lookupW rest s

/-- Replace (or add) the named tree in the world. -/
def updateW (w : World) (s : String) (t : FsState) : World :=
  (s, t) :: w.filter (fun e => decide (e.1 ≠ s))

namespace parse

/-- Modelled from the spec: `parse_args` validates the request before any
mutation — a missing subcommand, wrong operation arity, or a nonexistent
source path is a request error.  Copy and Synchronize require a source and a
destination; Delete requires only a destination. -/
def parse_args (w : World) (args : RawArgs) :
    Except String (SubCommand × List Flag) :=
  match args.command with
  | none => .error "no subcommand given"
  | some SubCommandType.delete =>
    match args.paths with
    | [d] => .ok (⟨SubCommandType.delete, none, d⟩, args.flagSet)
    | _ => .error "wrong number of arguments"
  | some ct =>
    match args.paths with
    | [s, d] =>
      if (lookupW w s).isSome then .ok (⟨ct, some s, d⟩, args.flagSet)
      else .error "source path does not exist"
    | _ => .error "wrong number of arguments"

end parse

/-- Dispatch a validated subcommand to the core engines, as `main` does,
returning the updated world and the aggregated failures. -/
def runCommand (sc : SubCommand) (flags : List Flag) (w : World) :
    World × List (Path × String) :=
  match sc.sub_command_type with
  | .delete =>
    match lookupW w sc.dest with
    | some d =>
      let r := core.delete d flags
      (updateW w sc.dest r.1, r.2)
    | none => (w, [(([] : Path), "destination does not exist")])
  | ct =>
    match sc.src with
    | none => (w, [(([] : Path), "source missing")])
    | some s =>
      match lookupW w s with
      | none => (w, [(([] : Path), "source does not exist")])
      | some srcState =>
        let dst := (lookupW w sc.dest).getD { rootExists := true, entries := [] }
        let r :=
          if ct = SubCommandType.copy then core.copy srcState.entries dst flags
          else core.synchronize srcState.entries dst flags
        (updateW w sc.dest r.1, r.2)

/-- Modelled from the spec and `main.rs`: `main` parses the arguments, exits
with code 1 on a request error before any mutation, otherwise dispatches to
the core engines and exits 0 exactly when every action succeeded. -/
def mainModel (w : World) (args : RawArgs) : World × Nat :=
  match parse.parse_args w args with
  | .error _ => (w, 1)
  | .ok (sc, flags) =>
    let r := runCommand sc flags w
    (r.1, if r.2 = [] then 0 else 1)

/-- Well-formed snapshot: no duplicate paths, no binding of the (implicit)
root path, and every entry's parent is the root or a directory of the
snapshot.  This is what a walk of a real directory tree produces. -/
def Wf (s : Snapshot) : Prop :=
  (keysOf s).Nodup ∧
    ∀ e ∈ s, e.1 ≠ [] ∧
      (e.1.dropLast = [] ∨ findE s e.1.dropLast = some Node.dirNode)

instance (s : Snapshot) : Decidable (Wf s) := by
  unfold Wf; infer_instance

/-! ### Concrete sample trees -/

/-- Sample file data: two files agreeing in size and modified time but with
different content. -/
def fileA : FileData := { kind := .file, size := 1, mtime := 5, content := [0] }

def fileB : FileData := { kind := .file, size := 1, mtime := 5, content := [1] }

/-- Sample source snapshot: a directory with one file inside, plus a
top-level file. -/
def srcSample : Snapshot :=
  [(["a"], Node.dirNode), (["a", "f"], Node.leafNode fileA),
   (["b"], Node.leafNode fileB)]

/-- Sample destination state: shares directory `a` with the source but has
its own file inside it and its own top-level file. -/
def dstSample : FsState :=
  { rootExists := true
    entries := [(["a"], Node.dirNode), (["a", "g"], Node.leafNode fileA),
                (["c"], Node.leafNode fileB)] }

/-! ### Path-level views of the Change Detector's decisions

These definitions restate, per correlated pair of optional nodes, which
actions `detect` emits; they are proved equal to filters of the walker's
output below and are only a convenient indexing device for the proofs. -/

/-- Does the Change Detector emit a `DeletePath` for this correlated pair? -/
def delConds (srcN dstN : Option Node) (elig : Bool) : Bool :=
  match srcN, dstN with
  | none, some _ => elig
  | some Node.dirNode, some (Node.leafNode _) => true
  | some (Node.leafNode _), some Node.dirNode => true
  | some (Node.leafNode s), some (Node.leafNode d) => decide (s.kind ≠ d.kind)
  | _, _ => false

/-- Does the Change Detector emit a `MakeDirectory` for this pair? -/
def mkConds (srcN dstN : Option Node) : Bool :=
  match srcN, dstN with
  | some Node.dirNode, none => true
  | some Node.dirNode, some (Node.leafNode _) => true
  | _, _ => false

/-- The file data of the `CopyFile` the Change Detector emits for this pair,
if any. -/
def copyActOf (srcN dstN : Option Node) (strat : ComparisonStrategy) :
    Option FileData :=
  match srcN, dstN with
  | some (Node.leafNode s), none => some s
  | some (Node.leafNode s), some Node.dirNode => some s
  | some (Node.leafNode s), some (Node.leafNode d) =>
    if s.kind = d.kind then
      if unchangedFiles strat s d then none else some s
    else some s
  | _, _ => none

/-- Would a `DeletePath p` succeed on snapshot `s` (path present, and a
directory only if empty)? -/
def delOK (s : Snapshot) (p : Path) : Bool :=
  match findE s p with
  | some (Node.leafNode _) => true
  | some Node.dirNode => !hasStrictExt s p
  | none => false

/-- First-match lookup in a path-keyed list of file data. -/
def lookupC : List (Path × FileData) → Path → Option FileData
  | [], _ => none
  | c :: rest, p => if c.1 = p then some c.2 else lookupC rest p

/-- Paths for which the walker emits a deletion. -/
def delPaths (src dst : Snapshot) (elig : Bool) : List Path :=
  (allPaths src dst).filter (fun p => delConds (findE src p) (findE dst p) elig)

/-- Paths for which the walker emits a directory creation. -/
def mkPaths (src dst : Snapshot) : List Path :=
  (allPaths src dst).filter (fun p => mkConds (findE src p) (findE dst p))

/-- Path/data pairs for which the walker emits a file copy. -/
def copyPairs (src dst : Snapshot) (strat : ComparisonStrategy) :
    List (Path × FileData) :=
  (allPaths src dst).filterMap
    (fun p => (copyActOf (findE src p) (findE dst p) strat).map (fun fd => (p, fd)))

/-- Stable bucket sort of paths by length, deepest first. -/
def lenSortDesc (base : List Path) (n : Nat) : List Path :=
  ((List.range (n + 1)).reverse.map
    (fun d => base.filter (fun p => decide (p.length = d)))).flatten

/-- Stable bucket sort of paths by length, shallowest first. -/
def lenSortAsc (base : List Path) (n : Nat) : List Path :=
  ((List.range (n + 1)).map
    (fun d => base.filter (fun p => decide (p.length = d)))).flatten

/-! ### Expected results of one run, per path -/

/-- Content agreement demanded by the mirror property: directories match
directories, and files match files of the same kind that the active strategy
classifies as unchanged. -/
def nodeMatches (strat : ComparisonStrategy) : Node → Node → Prop
  | Node.dirNode, Node.dirNode => True
  | Node.leafNode s, Node.leafNode f => s.kind = f.kind ∧ unchangedFiles strat s f = true
  | _, _ => False

/-- Expected entry at path `p` after a synchronize with deletion eligible:
the destination mirrors the source (keeping the old file where the strategy
saw no change). -/
def mirrorExpected (src dstE : Snapshot) (strat : ComparisonStrategy)
    (p : Path) : Option Node :=
  match findE src p, findE dstE p with
  | none, _ => none
  | some Node.dirNode, _ => some Node.dirNode
  | some (Node.leafNode s), some (Node.leafNode d) =>
    if s.kind = d.kind && unchangedFiles strat s d then some (Node.leafNode d)
    else some (Node.leafNode s)
  | some (Node.leafNode s), _ => some (Node.leafNode s)

/-- Expected entry at path `p` after a run with deletion ineligible (copy, or
synchronize with NoDelete): destination-only content is untouched; a source
file colliding with a nonempty destination directory is left as that
directory (the deletion is suppressed, so the copy fails). -/
def noDelExpected (src dstE : Snapshot) (strat : ComparisonStrategy)
    (p : Path) : Option Node :=
  match findE src p, findE dstE p with
  | none, _ => findE dstE p
  | some Node.dirNode, _ => some Node.dirNode
  | some (Node.leafNode s), some Node.dirNode =>
    if hasStrictExt dstE p then some Node.dirNode else some (Node.leafNode s)
  | some (Node.leafNode s), some (Node.leafNode d) =>
    if s.kind = d.kind && unchangedFiles strat s d then some (Node.leafNode d)
    else some (Node.leafNode s)
  | some (Node.leafNode s), none => some (Node.leafNode s)

/-! ### Ordering and independence of actions -/

/-- Ordering demanded of a pair of plan positions (earlier action `a`, later
action `b`): a creating or writing action is never placed before the creation
of a directory strictly above it, and a directory deletion is never placed
before the deletion of one of its descendants. -/
def orderOK (a b : Action) : Prop :=
  (∀ q, b = Action.makeDirectory q →
    ∀ p, (a = Action.makeDirectory p ∨ ∃ d, a = Action.copyFile p d) →
      ¬(isPre q p = true ∧ q ≠ p))
  ∧ ∀ p q, a = Action.deletePath p → b = Action.deletePath q →
      ¬(isPre p q = true ∧ p ≠ q)

/-- Independence of two actions of one dependency wave: they are of the same
shape (or skips), target distinct, mutually non-nested, non-root paths, and
neither targets the parent of the other. -/
def indepA : Action → Action → Prop
  | Action.skip, _ => True
  | _, Action.skip => True
  | Action.deletePath p, Action.deletePath q =>
    p ≠ [] ∧ q ≠ [] ∧ ¬isPre p q = true ∧ ¬isPre q p = true
  | Action.makeDirectory p, Action.makeDirectory q =>
    p ≠ [] ∧ q ≠ [] ∧ p ≠ q ∧ p.dropLast ≠ q ∧ q.dropLast ≠ p
  | Action.copyFile p _, Action.copyFile q _ =>
    p ≠ [] ∧ q ≠ [] ∧ p ≠ q ∧ p.dropLast ≠ q ∧ q.dropLast ≠ p
  | _, _ => False

/-- Extensional equality of snapshots: the same lookup everywhere. -/
def ExtS (s₁ s₂ : Snapshot) : Prop := ∀ p, findE s₁ p = findE s₂ p

/-- Extensional equality of filesystem states ("identical tree states"). -/
def ExtState (t₁ t₂ : FsState) : Prop :=
  t₁.rootExists = t₂.rootExists ∧ ExtS t₁.entries t₂.entries

/-! ### Basic lemmas about lookups, removal and path prefixes -/

theorem findE_remove (s : Snapshot) (r p : Path) :
    findE (removeP s r) p = if p = r then none else findE s p := by
  induction s with
  | nil => simp [removeP, findE]
  | cons e rest ih =>
    by_cases her : e.1 = r
    · by_cases hpr : p = r
      · subst hpr
        simp [removeP, her, ih]
      · have hep : e.1 ≠ p := fun h => hpr (by rw [← h, her])
        have hrp : r ≠ p := fun h => hpr h.symm
        simp [removeP, her, ih, hpr, findE, hep, hrp]
    · by_cases hep : e.1 = p
      · have hpr : p ≠ r := fun h => her (by rw [hep, h])
        simp [removeP, her, findE, hep, hpr]
      · simp [removeP, her, findE, hep, ih]

theorem mem_of_findE {s : Snapshot} {p : Path} {n : Node}
    (h : findE s p = some n) : (p, n) ∈ s := by
  induction s with
  | nil => simp [findE] at h
  | cons e rest ih =>
    by_cases he : e.1 = p
    · simp only [findE, if_pos he] at h
      injection h with h
      exact List.mem_cons.mpr (Or.inl (by cases e; simp_all))
    · simp only [findE, if_neg he] at h
      exact List.mem_cons_of_mem _ (ih h)

theorem findE_isSome_of_mem {s : Snapshot} {p : Path} {n : Node}
    (h : (p, n) ∈ s) : (findE s p).isSome := by
  induction s with
  | nil => simp at h
  | cons e rest ih =>
    by_cases he : e.1 = p
    · simp [findE, he]
    · rcases List.mem_cons.mp h with h' | h'
      · exact absurd (by cases e; simp_all) he
      · simpa [findE, he] using ih h'

theorem findE_of_mem_nodup {s : Snapshot} {p : Path} {n : Node}
    (hnd : (keysOf s).Nodup) (h : (p, n) ∈ s) : findE s p = some n := by
  induction s with
  | nil => simp at h
  | cons e rest ih =>
    simp only [keysOf, List.map_cons, List.nodup_cons] at hnd
    rcases List.mem_cons.mp h with h' | h'
    · cases e; cases h'; simp [findE]
    · have : e.1 ≠ p := by
        intro hep
        exact hnd.1 (hep ▸ List.mem_map_of_mem Prod.fst h')
      simp [findE, this]
      exact ih hnd.2 h'

theorem mem_keysOf_iff {s : Snapshot} {p : Path} :
    p ∈ keysOf s ↔ ∃ n, (p, n) ∈ s := by
  constructor
  · intro h
    rcases List.mem_map.mp h with ⟨e, he, rfl⟩
    exact ⟨e.2, by simpa using he⟩
  · rintro ⟨n, hn⟩
    exact List.mem_map.mpr ⟨(p, n), hn, rfl⟩

theorem findE_isSome_iff_mem_keys {s : Snapshot} {p : Path} :
    (findE s p).isSome ↔ p ∈ keysOf s := by
  constructor
  · intro h
    rcases Option.isSome_iff_exists.mp h with ⟨n, hn⟩
    exact mem_keysOf_iff.mpr ⟨n, mem_of_findE hn⟩
  · intro h
    rcases mem_keysOf_iff.mp h with ⟨n, hn⟩
    exact findE_isSome_of_mem hn

theorem isPre_refl (p : Path) : isPre p p = true := by
  induction p with
  | nil => rfl
  | cons a as ih => simp [isPre, ih]

theorem isPre_length {p q : Path} (h : isPre p q = true) : p.length ≤ q.length := by
  induction p generalizing q with
  | nil => simp
  | cons a as ih =>
    cases q with
    | nil => simp [isPre] at h
    | cons b bs =>
      simp only [isPre, Bool.and_eq_true] at h
      have := ih h.2
      simp only [List.length_cons]
      omega

theorem eq_of_isPre_of_length {p q : Path} (h : isPre p q = true)
    (hl : q.length ≤ p.length) : p = q := by
  induction p generalizing q with
  | nil =>
    cases q with
    | nil => rfl
    | cons b bs => simp at hl
  | cons a as ih =>
    cases q with
    | nil => simp [isPre] at h
    | cons b bs =>
      simp only [isPre, Bool.and_eq_true, decide_eq_true_eq] at h
      simp only [List.length_cons] at hl
      rw [h.1, ih h.2 (by omega)]

theorem length_lt_of_isPre_ne {p q : Path} (h : isPre p q = true) (hne : p ≠ q) :
    p.length < q.length := by
  rcases Nat.lt_or_ge p.length q.length with h' | h'
  · exact h'
  · exact absurd (eq_of_isPre_of_length h h') hne

theorem isPre_trans {p q r : Path} (h1 : isPre p q = true) (h2 : isPre q r = true) :
    isPre p r = true := by
  induction p generalizing q r with
  | nil => rfl
  | cons a as ih =>
    cases q with
    | nil => simp [isPre] at h1
    | cons b bs =>
      cases r with
      | nil => simp [isPre] at h2
      | cons c cs =>
        simp only [isPre, Bool.and_eq_true, decide_eq_true_eq] at h1 h2 ⊢
        exact ⟨h1.1.trans h2.1, ih h1.2 h2.2⟩

theorem isPre_dropLast (p : Path) : isPre p.dropLast p = true := by
  induction p with
  | nil => rfl
  | cons a as ih =>
    cases as with
    | nil => rfl
    | cons b bs =>
      rw [List.dropLast_cons₂]
      simp [isPre, ih]

theorem isPre_unique {q q' p : Path} (h : isPre q p = true) (h' : isPre q' p = true)
    (hl : q.length = q'.length) : q = q' := by
  induction q generalizing q' p with
  | nil =>
    cases q' with
    | nil => rfl
    | cons b bs => simp at hl
  | cons a as ih =>
    cases q' with
    | nil => simp at hl
    | cons b bs =>
      cases p with
      | nil => simp [isPre] at h
      | cons c cs =>
        simp only [isPre, Bool.and_eq_true, decide_eq_true_eq] at h h'
        simp only [List.length_cons] at hl
        rw [h.1, h'.1, ih h.2 h'.2 (by omega)]

theorem isPre_shorter {q p : Path} (h : isPre q p = true) (hl : q.length < p.length) :
    isPre q p.dropLast = true := by
  induction q generalizing p with
  | nil => rfl
  | cons a as ih =>
    cases p with
    | nil => simp [isPre] at h
    | cons b bs =>
      simp only [isPre, Bool.and_eq_true, decide_eq_true_eq] at h
      cases bs with
      | nil =>
        exfalso
        simp only [List.length_cons, List.length_nil] at hl
        omega
      | cons c cs =>
        rw [List.dropLast_cons₂]
        simp only [List.length_cons] at hl
        have := ih h.2 (by simp only [List.length_cons]; omega)
        simp [isPre, h.1, this]

theorem dropLast_length_lt {p : Path} (h : p ≠ []) : p.dropLast.length < p.length := by
  rw [List.length_dropLast]
  have : p.length ≠ 0 := fun h0 => h (List.length_eq_zero.mp h0)
  omega

theorem hasStrictExt_iff {s : Snapshot} {p : Path} :
    hasStrictExt s p = true ↔ ∃ q n, (q, n) ∈ s ∧ isPre p q = true ∧ p ≠ q := by
  induction s with
  | nil => simp [hasStrictExt]
  | cons e rest ih =>
    constructor
    · intro h
      simp only [hasStrictExt, Bool.or_eq_true] at h
      rcases h with h | h
      · rw [Bool.and_eq_true, decide_eq_true_eq] at h
        exact ⟨e.1, e.2, List.mem_cons.mpr (Or.inl (by cases e; rfl)), h.1, h.2⟩
      · rcases ih.mp h with ⟨q, n, hm, h1, h2⟩
        exact ⟨q, n, List.mem_cons_of_mem _ hm, h1, h2⟩
    · rintro ⟨q, n, hm, h1, h2⟩
      simp only [hasStrictExt, Bool.or_eq_true]
      rcases List.mem_cons.mp hm with heq | hm'
      · left
        rw [Bool.and_eq_true, decide_eq_true_eq]
        have he1 : e.1 = q := by rw [← heq]
        rw [he1]
        exact ⟨h1, h2⟩
      · right
        exact ih.mpr ⟨q, n, hm', h1, h2⟩

theorem hasStrictExt_remove {s : Snapshot} {r p : Path}
    (h : ¬(isPre p r = true ∧ p ≠ r)) :
    hasStrictExt (removeP s r) p = hasStrictExt s p := by
  induction s with
  | nil => simp [removeP]
  | cons e rest ih =>
    by_cases her : e.1 = r
    · subst her
      have hfalse : (isPre p e.1 && decide (p ≠ e.1)) = false := by
        by_cases h1 : isPre p e.1 = true
        · have h2 : p = e.1 := by
            by_contra hne
            exact h ⟨h1, hne⟩
          simp [h2]
        · have h1' : isPre p e.1 = false := by
            cases hb : isPre p e.1
            · rfl
            · exact absurd hb h1
          simp [h1']
      rw [show removeP (e :: rest) e.1 = removeP rest e.1 by simp [removeP], ih,
        show hasStrictExt (e :: rest) p
            = ((isPre p e.1 && decide (p ≠ e.1)) || hasStrictExt rest p) from rfl,
        hfalse, Bool.false_or]
    · simp [removeP, her, hasStrictExt, ih]

/-! ### Basic lemmas about the scheduler -/

theorem runState_nil (t : FsState) : runState t [] = t := rfl

theorem runState_cons (t : FsState) (a : Action) (l : List Action) :
    runState t (a :: l) = runState (stepState t a) l := rfl

theorem runState_append (t : FsState) (l₁ l₂ : List Action) :
    runState t (l₁ ++ l₂) = runState (runState t l₁) l₂ :=
  List.foldl_append _ _ _ _

theorem stepState_ok {t t' : FsState} {a : Action} (h : applyAction t a = .ok t') :
    stepState t a = t' := by simp [stepState, h]

theorem stepState_err {t : FsState} {a : Action} {e : String}
    (h : applyAction t a = .error e) : stepState t a = t := by simp [stepState, h]

theorem runFails_cons_ok {t t' : FsState} {a : Action} {l : List Action}
    (h : applyAction t a = .ok t') : runFails t (a :: l) = runFails t' l := by
  simp [runFails, h]

theorem runFails_cons_err {t : FsState} {a : Action} {e : String} {l : List Action}
    (h : applyAction t a = .error e) :
    runFails t (a :: l) = (actionPath a, e) :: runFails t l := by
  simp [runFails, h]

theorem runFails_append (t : FsState) (l₁ l₂ : List Action) :
    runFails t (l₁ ++ l₂) = runFails t l₁ ++ runFails (runState t l₁) l₂ := by
  induction l₁ generalizing t with
  | nil => simp [runFails, runState]
  | cons a l ih =>
    cases h : applyAction t a with
    | ok t' =>
      rw [List.cons_append, runFails_cons_ok h, runFails_cons_ok h, ih,
        runState_cons, stepState_ok h]
    | error e =>
      rw [List.cons_append, runFails_cons_err h, runFails_cons_err h, ih,
        runState_cons, stepState_err h, List.cons_append]

/-! ### Consequences of well-formedness -/

theorem wf_ne_nil {s : Snapshot} {p : Path} {n : Node} (hs : Wf s)
    (h : (p, n) ∈ s) : p ≠ [] := (hs.2 _ h).1

theorem wf_parent_dir {s : Snapshot} {p : Path} {n : Node} (hs : Wf s)
    (h : (p, n) ∈ s) (hne : p.dropLast ≠ []) :
    findE s p.dropLast = some Node.dirNode := by
  rcases (hs.2 _ h).2 with h' | h'
  · exact absurd h' hne
  · exact h'

theorem wf_prefix_dir {s : Snapshot} (hs : Wf s) :
    ∀ (p : Path) (n : Node), (p, n) ∈ s → ∀ q, isPre q p = true → q ≠ [] → q ≠ p →
      findE s q = some Node.dirNode := by
  have main : ∀ (k : Nat) (p : Path) (n : Node), p.length = k → (p, n) ∈ s →
      ∀ q, isPre q p = true → q ≠ [] → q ≠ p → findE s q = some Node.dirNode := by
    intro k
    induction k using Nat.strong_induction_on with
    | _ k ih =>
      intro p n hk hmem q hpre hq hqp
      have hql : q.length < p.length := length_lt_of_isPre_ne hpre hqp
      by_cases hlen : q.length = p.length - 1
      · have hpar : q = p.dropLast := by
          refine isPre_unique hpre (isPre_dropLast p) ?_
          rw [List.length_dropLast, hlen]
        have hne : p.dropLast ≠ [] := hpar ▸ hq
        rw [hpar]
        exact wf_parent_dir hs hmem hne
      · have hples : q.length < p.length - 1 := by omega
        have hpne : p ≠ [] := by
          intro h0
          rw [h0] at hql
          simp at hql
        have hdl : p.dropLast ≠ [] := by
          intro h0
          have h1 : p.dropLast.length = 0 := by rw [h0]; rfl
          rw [List.length_dropLast] at h1
          omega
        have hpardir := wf_parent_dir hs hmem hdl
        have hparmem := mem_of_findE hpardir
        have hpre' : isPre q p.dropLast = true := isPre_shorter hpre hql
        have hqpar : q ≠ p.dropLast := by
          intro h0
          rw [h0, List.length_dropLast] at hples
          omega
        exact ih p.dropLast.length
          (by rw [List.length_dropLast, hk]; omega)
          p.dropLast Node.dirNode rfl hparmem q hpre' hq hqpar
  intro p n hmem q
  exact main p.length p n rfl hmem q

/-! ### Claim C4: the Change Detector on correlated files -/

/-- C4: for every pair of correlated files with identical size and identical
modified time but different content, the Change Detector under the Metadata
strategy returns Skip, while under the Secure strategy it compares content
digests, never consults the timestamp, and returns CopyFile. -/
theorem claim_C4_change_detector (p : Path) (s d : FileData) (elig : Bool)
    (hk1 : s.kind = EntryKind.file) (hk2 : d.kind = EntryKind.file)
    (hsize : s.size = d.size) (hmtime : s.mtime = d.mtime)
    (hcontent : s.content ≠ d.content) :
    detect p (some (Node.leafNode s)) (some (Node.leafNode d))
        ComparisonStrategy.metadata elig = [Action.skip]
    ∧ detect p (some (Node.leafNode s)) (some (Node.leafNode d))
        ComparisonStrategy.secure elig = [Action.copyFile p s]
    ∧ ∀ m₁ m₂ : Nat,
        unchangedFiles ComparisonStrategy.secure
            { s with mtime := m₁ } { d with mtime := m₂ }
          = unchangedFiles ComparisonStrategy.secure s d := by
  refine ⟨?_, ?_, ?_⟩
  · simp [detect, hk1, hk2, unchangedFiles, hsize, hmtime]
  · simp [detect, hk1, hk2, unchangedFiles, digest, hcontent]
  · intro m₁ m₂
    simp [unchangedFiles, digest]

/-- Witness for C4 at concrete files. -/
theorem claim_C4_witness :
    detect ["x"] (some (Node.leafNode fileA)) (some (Node.leafNode fileB))
        ComparisonStrategy.metadata true = [Action.skip]
    ∧ detect ["x"] (some (Node.leafNode fileA)) (some (Node.leafNode fileB))
        ComparisonStrategy.secure true = [Action.copyFile ["x"] fileA]
    ∧ unchangedFiles ComparisonStrategy.secure
          { fileA with mtime := 3 } { fileB with mtime := 7 }
        = unchangedFiles ComparisonStrategy.secure fileA fileB :=
  ⟨(claim_C4_change_detector ["x"] fileA fileB true (by decide) (by decide)
      (by decide) (by decide) (by decide)).1,
    (claim_C4_change_detector ["x"] fileA fileB true (by decide) (by decide)
      (by decide) (by decide) (by decide)).2.1,
    (claim_C4_change_detector ["x"] fileA fileB true (by decide) (by decide)
      (by decide) (by decide) (by decide)).2.2 3 7⟩

/-! ### Claim C8: best-effort execution and failure aggregation -/

/-- C8: a per-action failure never halts or blocks the rest of the plan —
the remaining actions execute exactly as they would from the same state, the
failure is recorded against its path with its cause in the aggregated
failure list, and the RunResult is success exactly when no action failed
(here it is the failure report, which enumerates every failed path). -/
theorem claim_C8_failure_isolation (t : FsState) (pre post : List Action)
    (a : Action) (e : String)
    (h : applyAction (runState t pre) a = .error e) :
    runState t (pre ++ a :: post) = runState (runState t pre) post
    ∧ runFails t (pre ++ a :: post)
        = runFails t pre ++ (actionPath a, e) :: runFails (runState t pre) post
    ∧ (runResult t (pre ++ a :: post) = RunResult.success
        ↔ runFails t (pre ++ a :: post) = [])
    ∧ runResult t (pre ++ a :: post)
        = RunResult.failure (runFails t (pre ++ a :: post)) := by
  have h1 : runState t (pre ++ a :: post) = runState (runState t pre) post := by
    rw [runState_append, runState_cons, stepState_err h]
  have h2 : runFails t (pre ++ a :: post)
      = runFails t pre ++ (actionPath a, e) :: runFails (runState t pre) post := by
    rw [runFails_append, runFails_cons_err h]
  have hne : runFails t (pre ++ a :: post) ≠ [] := by
    rw [h2]
    simp
  refine ⟨h1, h2, ?_, ?_⟩
  · by_cases hc : runFails t (pre ++ a :: post) = [] <;> simp [runResult, hc]
  · simp [runResult, hne]

/-- Witness for C8: deleting a missing path fails but the following action
still executes. -/
theorem claim_C8_witness :
    runState { rootExists := true, entries := [] }
        ([] ++ Action.deletePath ["x"] :: [Action.makeDirectory ["y"]])
      = runState (runState { rootExists := true, entries := [] } [])
          [Action.makeDirectory ["y"]]
    ∧ runFails { rootExists := true, entries := [] }
        ([] ++ Action.deletePath ["x"] :: [Action.makeDirectory ["y"]])
        = runFails { rootExists := true, entries := [] } []
            ++ (actionPath (Action.deletePath ["x"]), "no such path")
              :: runFails (runState { rootExists := true, entries := [] } [])
                  [Action.makeDirectory ["y"]]
    ∧ (runResult { rootExists := true, entries := [] }
        ([] ++ Action.deletePath ["x"] :: [Action.makeDirectory ["y"]])
          = RunResult.success
        ↔ runFails { rootExists := true, entries := [] }
            ([] ++ Action.deletePath ["x"] :: [Action.makeDirectory ["y"]]) = [])
    ∧ runResult { rootExists := true, entries := [] }
        ([] ++ Action.deletePath ["x"] :: [Action.makeDirectory ["y"]])
        = RunResult.failure
            (runFails { rootExists := true, entries := [] }
              ([] ++ Action.deletePath ["x"] :: [Action.makeDirectory ["y"]])) :=
  claim_C8_failure_isolation { rootExists := true, entries := [] } []
    [Action.makeDirectory ["y"]] (Action.deletePath ["x"]) "no such path" rfl

/-! ### Claims C9 and C10: request validation before execution -/

/-- C9: a request error (missing or invalid source, nonexistent source path,
wrong operation arity) is detected before any mutation: the run halts with
the world unchanged (zero filesystem side effects) and a nonzero exit
code. -/
theorem claim_C9_request_error_halts (w : World) (args : RawArgs) (e : String)
    (h : parse.parse_args w args = .error e) :
    mainModel w args = (w, 1)
    ∧ (mainModel w args).1 = w
    ∧ (mainModel w args).2 ≠ 0 := by
  have h1 : mainModel w args = (w, 1) := by
    simp [mainModel, h]
  refine ⟨h1, by rw [h1], by rw [h1]; simp⟩

/-- Witness for C9: an invocation with no subcommand. -/
theorem claim_C9_witness :
    mainModel [] { command := none, paths := [], flagSet := [] } = ([], 1)
    ∧ (mainModel [] { command := none, paths := [], flagSet := [] }).1 = []
    ∧ (mainModel [] { command := none, paths := [], flagSet := [] }).2 ≠ 0 :=
  claim_C9_request_error_halts [] { command := none, paths := [], flagSet := [] }
    "no subcommand given" rfl

/-- C10: whenever `parse_args` accepts an argument set and the parsed
subcommand is Copy or Synchronize, the parsed source path is present, so the
`.unwrap()` on the source in `main` cannot panic. -/
theorem claim_C10_src_present (w : World) (args : RawArgs) (sc : SubCommand)
    (fl : List Flag) (h : parse.parse_args w args = .ok (sc, fl))
    (hk : sc.sub_command_type = SubCommandType.copy
      ∨ sc.sub_command_type = SubCommandType.synchronize) :
    sc.src.isSome := by
  unfold parse.parse_args at h
  cases hcmd : args.command with
  | none => rw [hcmd] at h; exact absurd h (by simp)
  | some ct =>
    rw [hcmd] at h
    cases ct with
    | delete =>
      cases hp : args.paths with
      | nil => rw [hp] at h; exact absurd h (by simp)
      | cons x l =>
        cases l with
        | nil =>
          rw [hp] at h
          simp only [Except.ok.injEq, Prod.mk.injEq] at h
          rcases h with ⟨rfl, -⟩
          rcases hk with hk | hk <;> exact absurd hk (by simp)
        | cons y l' => rw [hp] at h; exact absurd h (by simp)
    | copy =>
      cases hp : args.paths with
      | nil => rw [hp] at h; exact absurd h (by simp)
      | cons x l =>
        cases l with
        | nil => rw [hp] at h; exact absurd h (by simp)
        | cons y l' =>
          cases l' with
          | nil =>
            rw [hp] at h
            by_cases hl : (lookupW w x).isSome
            · simp only [hl, if_true, Except.ok.injEq, Prod.mk.injEq] at h
              rcases h with ⟨rfl, -⟩
              simp
            · simp only [hl, if_false] at h
              exact absurd h (by simp)
          | cons z l'' => rw [hp] at h; exact absurd h (by simp)
    | synchronize =>
      cases hp : args.paths with
      | nil => rw [hp] at h; exact absurd h (by simp)
      | cons x l =>
        cases l with
        | nil => rw [hp] at h; exact absurd h (by simp)
        | cons y l' =>
          cases l' with
          | nil =>
            rw [hp] at h
            by_cases hl : (lookupW w x).isSome
            · simp only [hl, if_true, Except.ok.injEq, Prod.mk.injEq] at h
              rcases h with ⟨rfl, -⟩
              simp
            · simp only [hl, if_false] at h
              exact absurd h (by simp)
          | cons z l'' => rw [hp] at h; exact absurd h (by simp)

/-- Witness for C10 at a concrete accepted synchronize invocation. -/
theorem claim_C10_witness :
    (SubCommand.mk SubCommandType.synchronize (some "s") "d").src.isSome :=
  claim_C10_src_present [("s", { rootExists := true, entries := [] })]
    { command := some SubCommandType.synchronize, paths := ["s", "d"], flagSet := [] }
    (SubCommand.mk SubCommandType.synchronize (some "s") "d") [] rfl
    (Or.inr rfl)

theorem wf_leaf_no_ext {s : Snapshot} {p : Path} {d : FileData} (hs : Wf s)
    (h : findE s p = some (Node.leafNode d)) : hasStrictExt s p = false := by
  by_contra hext
  have hext' : hasStrictExt s p = true := by
    cases hb : hasStrictExt s p
    · exact absurd hb hext
    · rfl
  rcases hasStrictExt_iff.mp hext' with ⟨q, n, hm, hpre, hne⟩
  have hp : p ≠ [] := wf_ne_nil hs (mem_of_findE h)
  have hdir := wf_prefix_dir hs q n hm p hpre hp hne
  rw [h] at hdir
  exact absurd hdir (by simp)

/-! ### The path universe of one comparison -/

theorem mem_dedupPaths {l : List Path} {p : Path} : p ∈ dedupPaths l ↔ p ∈ l := by
  induction l with
  | nil => simp [dedupPaths]
  | cons q rest ih =>
    by_cases hq : q ∈ rest
    · simp only [dedupPaths, if_pos hq]
      constructor
      · intro h
        exact List.mem_cons_of_mem _ (ih.mp h)
      · intro h
        rcases List.mem_cons.mp h with rfl | h'
        · exact ih.mpr hq
        · exact ih.mpr h'
    · simp only [dedupPaths, if_neg hq]
      simp [List.mem_cons, ih]

theorem nodup_dedupPaths (l : List Path) : (dedupPaths l).Nodup := by
  induction l with
  | nil => simp [dedupPaths]
  | cons q rest ih =>
    by_cases hq : q ∈ rest
    · simpa only [dedupPaths, if_pos hq] using ih
    · simp only [dedupPaths, if_neg hq, List.nodup_cons]
      exact ⟨fun hmem => hq (mem_dedupPaths.mp hmem), ih⟩

theorem mem_allPaths {src dst : Snapshot} {p : Path} :
    p ∈ allPaths src dst ↔ p ∈ keysOf src ∨ p ∈ keysOf dst := by
  simp [allPaths, mem_dedupPaths]

theorem nodup_allPaths (src dst : Snapshot) : (allPaths src dst).Nodup :=
  nodup_dedupPaths _

theorem mem_allPaths_of_src {src dst : Snapshot} {p : Path} {n : Node}
    (h : findE src p = some n) : p ∈ allPaths src dst :=
  mem_allPaths.mpr (Or.inl (findE_isSome_iff_mem_keys.mp (by simp [h])))

theorem mem_allPaths_of_dst {src dst : Snapshot} {p : Path} {n : Node}
    (h : findE dst p = some n) : p ∈ allPaths src dst :=
  mem_allPaths.mpr (Or.inr (findE_isSome_iff_mem_keys.mp (by simp [h])))

/-! ### Bucket sorts by path length -/

theorem mem_lenSortDesc {base : List Path} {n : Nat} {q : Path}
    (hbound : ∀ p ∈ base, p.length ≤ n) :
    q ∈ lenSortDesc base n ↔ q ∈ base := by
  simp only [lenSortDesc, List.mem_flatten, List.mem_map]
  constructor
  · rintro ⟨l, ⟨d, hd, rfl⟩, hq⟩
    exact (List.mem_filter.mp hq).1
  · intro hq
    refine ⟨base.filter (fun p => decide (p.length = q.length)), ⟨q.length, ?_, rfl⟩, ?_⟩
    · rw [List.mem_reverse, List.mem_range]
      exact Nat.lt_succ_of_le (hbound q hq)
    · exact List.mem_filter.mpr ⟨hq, by simp⟩

theorem mem_lenSortAsc {base : List Path} {n : Nat} {q : Path}
    (hbound : ∀ p ∈ base, p.length ≤ n) :
    q ∈ lenSortAsc base n ↔ q ∈ base := by
  simp only [lenSortAsc, List.mem_flatten, List.mem_map]
  constructor
  · rintro ⟨l, ⟨d, hd, rfl⟩, hq⟩
    exact (List.mem_filter.mp hq).1
  · intro hq
    refine ⟨base.filter (fun p => decide (p.length = q.length)), ⟨q.length, ?_, rfl⟩, ?_⟩
    · rw [List.mem_range]
      exact Nat.lt_succ_of_le (hbound q hq)
    · exact List.mem_filter.mpr ⟨hq, by simp⟩

theorem nodup_lenSortDesc {base : List Path} {n : Nat} (hnd : base.Nodup) :
    (lenSortDesc base n).Nodup := by
  rw [lenSortDesc, List.nodup_flatten]
  constructor
  · intro l hl
    rcases List.mem_map.mp hl with ⟨d, _, rfl⟩
    exact hnd.filter _
  · rw [List.pairwise_map]
    have hpw : List.Pairwise (fun a b : Nat => a ≠ b) (List.range (n + 1)).reverse := by
      rw [List.pairwise_reverse]
      exact (List.pairwise_lt_range _).imp (fun h => (Nat.ne_of_lt h).symm)
    refine hpw.imp ?_
    intro d₁ d₂ hne x hx hy
    have hx' := (List.mem_filter.mp hx).2
    have hy' := (List.mem_filter.mp hy).2
    simp only [decide_eq_true_eq] at hx' hy'
    exact hne (hx' ▸ hy' ▸ rfl)

theorem nodup_lenSortAsc {base : List Path} {n : Nat} (hnd : base.Nodup) :
    (lenSortAsc base n).Nodup := by
  rw [lenSortAsc, List.nodup_flatten]
  constructor
  · intro l hl
    rcases List.mem_map.mp hl with ⟨d, _, rfl⟩
    exact hnd.filter _
  · rw [List.pairwise_map]
    have hpw : List.Pairwise (fun a b : Nat => a ≠ b) (List.range (n + 1)) :=
      (List.pairwise_lt_range _).imp Nat.ne_of_lt
    refine hpw.imp ?_
    intro d₁ d₂ hne x hx hy
    have hx' := (List.mem_filter.mp hx).2
    have hy' := (List.mem_filter.mp hy).2
    simp only [decide_eq_true_eq] at hx' hy'
    exact hne (hx' ▸ hy' ▸ rfl)

theorem pairwise_lenSortDesc (base : List Path) (n : Nat) :
    List.Pairwise (fun a b : Path => b.length ≤ a.length) (lenSortDesc base n) := by
  rw [lenSortDesc, List.pairwise_flatten]
  constructor
  · intro l hl
    rcases List.mem_map.mp hl with ⟨d, _, rfl⟩
    apply List.pairwise_of_forall_mem_list
    intro a ha b hb
    have ha' := (List.mem_filter.mp ha).2
    have hb' := (List.mem_filter.mp hb).2
    simp only [decide_eq_true_eq] at ha' hb'
    omega
  · rw [List.pairwise_map]
    have hpw : List.Pairwise (fun a b : Nat => b < a) (List.range (n + 1)).reverse := by
      rw [List.pairwise_reverse]
      exact List.pairwise_lt_range _
    refine hpw.imp ?_
    intro d₁ d₂ hlt x hx y hy
    have hx' := (List.mem_filter.mp hx).2
    have hy' := (List.mem_filter.mp hy).2
    simp only [decide_eq_true_eq] at hx' hy'
    omega

theorem pairwise_lenSortAsc (base : List Path) (n : Nat) :
    List.Pairwise (fun a b : Path => a.length ≤ b.length) (lenSortAsc base n) := by
  rw [lenSortAsc, List.pairwise_flatten]
  constructor
  · intro l hl
    rcases List.mem_map.mp hl with ⟨d, _, rfl⟩
    apply List.pairwise_of_forall_mem_list
    intro a ha b hb
    have ha' := (List.mem_filter.mp ha).2
    have hb' := (List.mem_filter.mp hb).2
    simp only [decide_eq_true_eq] at ha' hb'
    omega
  · rw [List.pairwise_map]
    have hpw : List.Pairwise (fun a b : Nat => a < b) (List.range (n + 1)) :=
      List.pairwise_lt_range _
    refine hpw.imp ?_
    intro d₁ d₂ hlt x hx y hy
    have hx' := (List.mem_filter.mp hx).2
    have hy' := (List.mem_filter.mp hy).2
    simp only [decide_eq_true_eq] at hx' hy'
    omega

/-! ### What the Change Detector emits, by shape -/

theorem detect_filter_delete (p : Path) (sn dn : Option Node)
    (strat : ComparisonStrategy) (elig : Bool) (d : Nat) :
    (detect p sn dn strat elig).filter
        (fun a => isDeleteA a && decide (actionDepth a = d))
      = if delConds sn dn elig && decide (p.length = d)
        then [Action.deletePath p] else [] := by
  cases sn with
  | none =>
    cases dn with
    | none => simp [detect, delConds]
    | some m =>
      cases elig <;> by_cases hd : p.length = d <;>
        simp [detect, delConds, isDeleteA, actionDepth, actionPath, hd]
  | some n =>
    cases dn with
    | none =>
      cases n <;> simp [detect, delConds, createActionFor, isDeleteA]
    | some m =>
      cases n with
      | dirNode =>
        cases m with
        | dirNode => simp [detect, delConds, isDeleteA]
        | leafNode md =>
          by_cases hd : p.length = d <;>
            simp [detect, delConds, createActionFor, isDeleteA,
              actionDepth, actionPath, hd]
      | leafNode sd =>
        cases m with
        | dirNode =>
          by_cases hd : p.length = d <;>
            simp [detect, delConds, createActionFor, isDeleteA,
              actionDepth, actionPath, hd]
        | leafNode md =>
          by_cases hk : sd.kind = md.kind
          · by_cases hu : unchangedFiles strat sd md <;>
              simp [detect, delConds, isDeleteA, hk, hu]
          · by_cases hd : p.length = d <;>
              simp [detect, delConds, isDeleteA, actionDepth, actionPath, hk, hd]

theorem detect_filter_mkdir (p : Path) (sn dn : Option Node)
    (strat : ComparisonStrategy) (elig : Bool) (d : Nat) :
    (detect p sn dn strat elig).filter
        (fun a => isMkdirA a && decide (actionDepth a = d))
      = if mkConds sn dn && decide (p.length = d)
        then [Action.makeDirectory p] else [] := by
  cases sn with
  | none =>
    cases dn with
    | none => simp [detect, mkConds]
    | some m => cases elig <;> simp [detect, mkConds, isMkdirA]
  | some n =>
    cases dn with
    | none =>
      cases n <;> by_cases hd : p.length = d <;>
        simp [detect, mkConds, createActionFor, isMkdirA, actionDepth, actionPath, hd]
    | some m =>
      cases n with
      | dirNode =>
        cases m with
        | dirNode => simp [detect, mkConds, isMkdirA]
        | leafNode md =>
          by_cases hd : p.length = d <;>
            simp [detect, mkConds, createActionFor, isMkdirA,
              actionDepth, actionPath, hd]
      | leafNode sd =>
        cases m with
        | dirNode => simp [detect, mkConds, createActionFor, isMkdirA]
        | leafNode md =>
          by_cases hk : sd.kind = md.kind
          · by_cases hu : unchangedFiles strat sd md <;>
              simp [detect, mkConds, isMkdirA, hk, hu]
          · simp [detect, mkConds, isMkdirA, hk]

theorem detect_filter_copy (p : Path) (sn dn : Option Node)
    (strat : ComparisonStrategy) (elig : Bool) :
    (detect p sn dn strat elig).filter isCopyA
      = match copyActOf sn dn strat with
        | some fd => [Action.copyFile p fd]
        | none => [] := by
  cases sn with
  | none =>
    cases dn with
    | none => simp [detect, copyActOf]
    | some m => cases elig <;> simp [detect, copyActOf, isCopyA]
  | some n =>
    cases dn with
    | none => cases n <;> simp [detect, copyActOf, createActionFor, isCopyA]
    | some m =>
      cases n with
      | dirNode =>
        cases m with
        | dirNode => simp [detect, copyActOf, isCopyA]
        | leafNode md => simp [detect, copyActOf, createActionFor, isCopyA]
      | leafNode sd =>
        cases m with
        | dirNode => simp [detect, copyActOf, createActionFor, isCopyA]
        | leafNode md =>
          by_cases hk : sd.kind = md.kind
          · by_cases hu : unchangedFiles strat sd md <;>
              simp [detect, copyActOf, isCopyA, hk, hu]
          · simp [detect, copyActOf, isCopyA, hk]

theorem mem_filter_skip {acts : List Action} {a : Action}
    (h : a ∈ acts.filter isSkipA) : a = Action.skip := by
  have := (List.mem_filter.mp h).2
  cases a <;> simp [isSkipA] at this ⊢

/-! ### The plan phases as sorted path lists -/

theorem raw_filter_delete (src dst : Snapshot) (strat : ComparisonStrategy)
    (elig : Bool) (d : Nat) :
    (rawActions src dst strat elig).filter
        (fun a => isDeleteA a && decide (actionDepth a = d))
      = ((delPaths src dst elig).filter (fun p => decide (p.length = d))).map
          Action.deletePath := by
  unfold rawActions delPaths
  rw [List.filter_flatten, List.map_map]
  generalize allPaths src dst = l
  induction l with
  | nil => simp
  | cons p l ih =>
    simp only [List.map_cons, List.flatten_cons, Function.comp_apply,
      detect_filter_delete, List.filter_cons]
    by_cases h1 : delConds (findE src p) (findE dst p) elig
    · by_cases h2 : p.length = d
      · simp [h1, h2, ih]
      · simp [h1, h2, ih]
    · simp [h1, ih]

theorem raw_filter_mkdir (src dst : Snapshot) (strat : ComparisonStrategy)
    (elig : Bool) (d : Nat) :
    (rawActions src dst strat elig).filter
        (fun a => isMkdirA a && decide (actionDepth a = d))
      = ((mkPaths src dst).filter (fun p => decide (p.length = d))).map
          Action.makeDirectory := by
  unfold rawActions mkPaths
  rw [List.filter_flatten, List.map_map]
  generalize allPaths src dst = l
  induction l with
  | nil => simp
  | cons p l ih =>
    simp only [List.map_cons, List.flatten_cons, Function.comp_apply,
      detect_filter_mkdir, List.filter_cons]
    by_cases h1 : mkConds (findE src p) (findE dst p)
    · by_cases h2 : p.length = d
      · simp [h1, h2, ih]
      · simp [h1, h2, ih]
    · simp [h1, ih]

theorem raw_filter_copy (src dst : Snapshot) (strat : ComparisonStrategy)
    (elig : Bool) :
    (rawActions src dst strat elig).filter isCopyA
      = (copyPairs src dst strat).map (fun c => Action.copyFile c.1 c.2) := by
  unfold rawActions copyPairs
  rw [List.filter_flatten, List.map_map]
  generalize allPaths src dst = l
  induction l with
  | nil => simp
  | cons p l ih =>
    simp only [List.map_cons, List.flatten_cons, Function.comp_apply,
      List.filterMap_cons]
    rw [detect_filter_copy]
    cases hc : copyActOf (findE src p) (findE dst p) strat with
    | none => simpa using ih
    | some fd => simp [ih]

theorem depth_le_maxDepth {acts : List Action} {a : Action} (h : a ∈ acts) :
    actionDepth a ≤ maxDepth acts := by
  induction acts with
  | nil => simp at h
  | cons b rest ih =>
    rcases List.mem_cons.mp h with rfl | h'
    · exact le_max_left _ _
    · exact le_trans (ih h') (le_max_right _ _)

theorem delPaths_length_le (src dst : Snapshot) (strat : ComparisonStrategy)
    (elig : Bool) {p : Path} (hp : p ∈ delPaths src dst elig) :
    p.length ≤ maxDepth (rawActions src dst strat elig) := by
  have hmem : Action.deletePath p
      ∈ ((delPaths src dst elig).filter
          (fun q => decide (q.length = p.length))).map Action.deletePath :=
    List.mem_map_of_mem _ (List.mem_filter.mpr ⟨hp, by simp⟩)
  rw [← raw_filter_delete src dst strat elig] at hmem
  have hd := depth_le_maxDepth (List.mem_filter.mp hmem).1
  simpa [actionDepth, actionPath] using hd

theorem mkPaths_length_le (src dst : Snapshot) (strat : ComparisonStrategy)
    (elig : Bool) {p : Path} (hp : p ∈ mkPaths src dst) :
    p.length ≤ maxDepth (rawActions src dst strat elig) := by
  have hmem : Action.makeDirectory p
      ∈ ((mkPaths src dst).filter
          (fun q => decide (q.length = p.length))).map Action.makeDirectory :=
    List.mem_map_of_mem _ (List.mem_filter.mpr ⟨hp, by simp⟩)
  rw [← raw_filter_mkdir src dst strat elig] at hmem
  have hd := depth_le_maxDepth (List.mem_filter.mp hmem).1
  simpa [actionDepth, actionPath] using hd

theorem deleteWaves_flatten (src dst : Snapshot) (strat : ComparisonStrategy)
    (elig : Bool) :
    (deleteWaves (rawActions src dst strat elig)).flatten
      = (lenSortDesc (delPaths src dst elig)
          (maxDepth (rawActions src dst strat elig))).map Action.deletePath := by
  unfold deleteWaves lenSortDesc
  rw [List.map_flatten, List.map_map]
  congr 1
  apply List.map_congr_left
  intro d _
  exact raw_filter_delete src dst strat elig d

theorem mkdirWaves_flatten (src dst : Snapshot) (strat : ComparisonStrategy)
    (elig : Bool) :
    (mkdirWaves (rawActions src dst strat elig)).flatten
      = (lenSortAsc (mkPaths src dst)
          (maxDepth (rawActions src dst strat elig))).map Action.makeDirectory := by
  unfold mkdirWaves lenSortAsc
  rw [List.map_flatten, List.map_map]
  congr 1
  apply List.map_congr_left
  intro d _
  exact raw_filter_mkdir src dst strat elig d

theorem syncPlan_eq (src dst : Snapshot) (strat : ComparisonStrategy)
    (elig : Bool) :
    syncPlan src dst strat elig
      = (lenSortDesc (delPaths src dst elig)
            (maxDepth (rawActions src dst strat elig))).map Action.deletePath
        ++ ((lenSortAsc (mkPaths src dst)
            (maxDepth (rawActions src dst strat elig))).map Action.makeDirectory
        ++ ((copyPairs src dst strat).map (fun c => Action.copyFile c.1 c.2)
        ++ (rawActions src dst strat elig).filter isSkipA)) := by
  unfold syncPlan syncWaves wavesOf
  rw [List.flatten_append, List.flatten_append, List.flatten_append,
    deleteWaves_flatten, mkdirWaves_flatten, raw_filter_copy]
  simp [List.append_assoc]

/-! ### Executing the plan phases -/

theorem removeP_eq_filter (s : Snapshot) (r : Path) :
    removeP s r = s.filter (fun e => decide (e.1 ≠ r)) := by
  induction s with
  | nil => simp [removeP]
  | cons f rest ih => by_cases hf : f.1 = r <;> simp [removeP, hf, ih]

theorem mem_removeP {s : Snapshot} {r : Path} {e : Path × Node}
    (h : e ∈ removeP s r) : e ∈ s ∧ e.1 ≠ r := by
  rw [removeP_eq_filter] at h
  have := List.mem_filter.mp h
  exact ⟨this.1, by simpa using this.2⟩

theorem applyAction_delete_ok {t : FsState} {p : Path} (hp : p ≠ [])
    (hok : delOK t.entries p = true) :
    applyAction t (Action.deletePath p)
      = .ok { t with entries := removeP t.entries p } := by
  unfold delOK at hok
  cases hf : findE t.entries p with
  | none => rw [hf] at hok; simp at hok
  | some n =>
    rw [hf] at hok
    cases n with
    | leafNode d => simp [applyAction, hp, hf]
    | dirNode =>
      have hext : hasStrictExt t.entries p = false := by
        cases hb : hasStrictExt t.entries p
        · rfl
        · rw [hb] at hok; simp at hok
      simp [applyAction, hp, hf, hext]

theorem run_skips (t : FsState) (l : List Action) (h : ∀ a ∈ l, a = Action.skip) :
    runState t l = t ∧ runFails t l = [] := by
  induction l generalizing t with
  | nil => exact ⟨rfl, rfl⟩
  | cons a rest ih =>
    have ha := h a (by simp)
    subst ha
    have happ : applyAction t Action.skip = .ok t := rfl
    have ihr := ih t (fun a ha => h a (List.mem_cons_of_mem _ ha))
    rw [runState_cons, stepState_ok happ, runFails_cons_ok happ]
    exact ihr

theorem run_deletes_sorted (ds : List Path) : ∀ t : FsState,
    (∀ p ∈ ds, p ≠ []) → ds.Nodup →
    List.Pairwise (fun a b : Path => b.length ≤ a.length) ds →
    (∀ p ∈ ds, (findE t.entries p).isSome) →
    (∀ p ∈ ds, ∀ q n, (q, n) ∈ t.entries → isPre p q = true → p ≠ q → q ∈ ds) →
    (runState t (ds.map Action.deletePath)).rootExists = t.rootExists
    ∧ (runState t (ds.map Action.deletePath)).entries
        = t.entries.filter (fun e => decide (e.1 ∉ ds))
    ∧ runFails t (ds.map Action.deletePath) = [] := by
  induction ds with
  | nil =>
    intro t _ _ _ _ _
    refine ⟨rfl, ?_, rfl⟩
    show t.entries = _
    symm
    apply List.filter_eq_self.mpr
    intro e _
    simp
  | cons p₀ ds' ih =>
    intro t hne hnd hsorted hmem hclosed
    have hp₀ : p₀ ≠ [] := hne p₀ (List.mem_cons_self p₀ ds')
    obtain ⟨n₀, hn₀⟩ :=
      Option.isSome_iff_exists.mp (hmem p₀ (List.mem_cons_self p₀ ds'))
    have hok : delOK t.entries p₀ = true := by
      unfold delOK
      rw [hn₀]
      cases n₀ with
      | leafNode d => rfl
      | dirNode =>
        cases hext : hasStrictExt t.entries p₀ with
        | false => rfl
        | true =>
          exfalso
          rcases hasStrictExt_iff.mp hext with ⟨q, m, hqm, hpre, hneq⟩
          have hq : q ∈ p₀ :: ds' :=
            hclosed p₀ (List.mem_cons_self p₀ ds') q m hqm hpre hneq
          have hlen : p₀.length < q.length := length_lt_of_isPre_ne hpre hneq
          rcases List.mem_cons.mp hq with rfl | hq'
          · omega
          · have := (List.pairwise_cons.mp hsorted).1 q hq'
            omega
    have happ := applyAction_delete_ok hp₀ hok
    have hp₀nd : p₀ ∉ ds' := (List.nodup_cons.mp hnd).1
    have hmem' : ∀ p ∈ ds',
        (findE ({ t with entries := removeP t.entries p₀ } : FsState).entries p).isSome := by
      intro p hp
      have hne' : p ≠ p₀ := fun h => hp₀nd (h ▸ hp)
      have := hmem p (List.mem_cons_of_mem _ hp)
      simpa [findE_remove, hne'] using this
    have hclosed' : ∀ p ∈ ds', ∀ q n,
        (q, n) ∈ ({ t with entries := removeP t.entries p₀ } : FsState).entries →
        isPre p q = true → p ≠ q → q ∈ ds' := by
      intro p hp q n hq hpre hneq
      have hq' := mem_removeP hq
      have hmemds := hclosed p (List.mem_cons_of_mem _ hp) q n hq'.1 hpre hneq
      rcases List.mem_cons.mp hmemds with rfl | h'
      · exact absurd rfl hq'.2
      · exact h'
    obtain ⟨hr, hent, hf⟩ := ih { t with entries := removeP t.entries p₀ }
      (fun p hp => hne p (List.mem_cons_of_mem _ hp))
      (List.nodup_cons.mp hnd).2
      (List.pairwise_cons.mp hsorted).2
      hmem' hclosed'
    refine ⟨?_, ?_, ?_⟩
    · rw [List.map_cons, runState_cons, stepState_ok happ]
      exact hr.trans rfl
    · rw [List.map_cons, runState_cons, stepState_ok happ, hent]
      show (removeP t.entries p₀).filter _ = _
      rw [removeP_eq_filter, List.filter_filter]
      apply List.filter_congr
      intro e _
      by_cases h1 : e.1 = p₀ <;> by_cases h2 : e.1 ∈ ds' <;>
        simp [h1, h2, List.mem_cons]
    · rw [List.map_cons, runFails_cons_ok happ, hf]

theorem applyAction_delete_err {t : FsState} {p : Path} (hp : p ≠ [])
    (hok : delOK t.entries p = false) :
    ∃ e, applyAction t (Action.deletePath p) = .error e := by
  unfold delOK at hok
  cases hf : findE t.entries p with
  | none => exact ⟨"no such path", by simp [applyAction, hp, hf]⟩
  | some n =>
    cases n with
    | leafNode d => rw [hf] at hok; simp at hok
    | dirNode =>
      cases hext : hasStrictExt t.entries p with
      | true => exact ⟨"directory not empty", by simp [applyAction, hp, hf, hext]⟩
      | false => rw [hf, hext] at hok; simp at hok

theorem run_deletes_free (ds : List Path) : ∀ t : FsState,
    (∀ p ∈ ds, p ≠ []) →
    List.Pairwise (fun p q : Path => ¬isPre p q = true ∧ ¬isPre q p = true) ds →
    (runState t (ds.map Action.deletePath)).rootExists = t.rootExists
    ∧ ∀ q, findE (runState t (ds.map Action.deletePath)).entries q
        = if q ∈ ds ∧ delOK t.entries q = true then none
          else findE t.entries q := by
  induction ds with
  | nil =>
    intro t _ _
    exact ⟨rfl, fun q => by simp [runState_nil]⟩
  | cons p₀ ds' ih =>
    intro t hne hfree
    have hp₀ : p₀ ≠ [] := hne p₀ (List.mem_cons_self p₀ ds')
    have hhead := (List.pairwise_cons.mp hfree).1
    have hfree' := (List.pairwise_cons.mp hfree).2
    have hne' := fun p hp => hne p (List.mem_cons_of_mem _ hp)
    by_cases hok : delOK t.entries p₀ = true
    · have happ := applyAction_delete_ok hp₀ hok
      obtain ⟨hr, hfind⟩ := ih { t with entries := removeP t.entries p₀ } hne' hfree'
      refine ⟨?_, ?_⟩
      · rw [List.map_cons, runState_cons, stepState_ok happ]
        exact hr.trans rfl
      · intro q
        rw [List.map_cons, runState_cons, stepState_ok happ, hfind q]
        by_cases hq : q ∈ ds'
        · have hind := hhead q hq
          have hqp₀ : q ≠ p₀ := fun h => hind.2 (h ▸ isPre_refl q)
          have hfe : findE (removeP t.entries p₀) q = findE t.entries q := by
            rw [findE_remove]
            simp [hqp₀]
          have hhe : hasStrictExt (removeP t.entries p₀) q
              = hasStrictExt t.entries q := by
            apply hasStrictExt_remove
            rintro ⟨h1, -⟩
            exact hind.2 h1
          have hdeq : delOK (removeP t.entries p₀) q = delOK t.entries q := by
            unfold delOK
            rw [hfe, hhe]
          show (if q ∈ ds' ∧ delOK (removeP t.entries p₀) q = true then none
              else findE (removeP t.entries p₀) q) = _
          rw [hdeq]
          by_cases hdq : delOK t.entries q = true
          · simp [hq, hdq, List.mem_cons]
          · simp [hq, hdq, hfe, List.mem_cons]
        · by_cases hqp₀ : q = p₀
          · subst hqp₀
            have hnone : findE (removeP t.entries q) q = none := by
              rw [findE_remove]
              simp
            show (if q ∈ ds' ∧ delOK (removeP t.entries q) q = true then none
                else findE (removeP t.entries q) q) = _
            simp [hq, hnone, hok, List.mem_cons]
          · have hfe : findE (removeP t.entries p₀) q = findE t.entries q := by
              rw [findE_remove]
              simp [hqp₀]
            show (if q ∈ ds' ∧ delOK (removeP t.entries p₀) q = true then none
                else findE (removeP t.entries p₀) q) = _
            simp [hq, hqp₀, hfe, List.mem_cons]
    · have hok' : delOK t.entries p₀ = false := by
        cases hb : delOK t.entries p₀
        · rfl
        · exact absurd hb hok
      obtain ⟨e, happ⟩ := applyAction_delete_err hp₀ hok'
      obtain ⟨hr, hfind⟩ := ih t hne' hfree'
      refine ⟨?_, ?_⟩
      · rw [List.map_cons, runState_cons, stepState_err happ]
        exact hr
      · intro q
        rw [List.map_cons, runState_cons, stepState_err happ, hfind q]
        by_cases hq : q ∈ ds'
        · by_cases hdq : delOK t.entries q = true <;> simp [hq, hdq, List.mem_cons]
        · by_cases hqp₀ : q = p₀
          · subst hqp₀
            simp [hq, hok', List.mem_cons]
          · simp [hq, hqp₀, List.mem_cons]

theorem applyAction_mkdir_ok {t : FsState} {p : Path} (hp : p ≠ [])
    (habs : findE t.entries p = none) (hpar : parentOkay t p = true) :
    applyAction t (Action.makeDirectory p)
      = .ok { t with entries := (p, Node.dirNode) :: t.entries } := by
  simp [applyAction, hp, habs, hpar]

theorem run_mkdirs (ms : List Path) : ∀ t : FsState,
    t.rootExists = true →
    (∀ p ∈ ms, p ≠ []) → ms.Nodup →
    List.Pairwise (fun a b : Path => a.length ≤ b.length) ms →
    (∀ p ∈ ms, findE t.entries p = none) →
    (∀ p ∈ ms, p.dropLast = [] ∨ findE t.entries p.dropLast = some Node.dirNode
      ∨ p.dropLast ∈ ms) →
    (runState t (ms.map Action.makeDirectory)).rootExists = true
    ∧ (∀ q, findE (runState t (ms.map Action.makeDirectory)).entries q
        = if q ∈ ms then some Node.dirNode else findE t.entries q)
    ∧ runFails t (ms.map Action.makeDirectory) = [] := by
  induction ms with
  | nil =>
    intro t hroot _ _ _ _ _
    exact ⟨hroot, fun q => by simp [runState_nil], rfl⟩
  | cons m₀ ms' ih =>
    intro t hroot hne hnd hsorted habs hpar
    have hm₀ : m₀ ≠ [] := hne m₀ (List.mem_cons_self _ _)
    have hm₀abs := habs m₀ (List.mem_cons_self _ _)
    have hparok : parentOkay t m₀ = true := by
      rcases hpar m₀ (List.mem_cons_self _ _) with h | h | h
      · unfold parentOkay
        rw [if_pos h]
        exact hroot
      · unfold parentOkay
        by_cases hdl : m₀.dropLast = []
        · rw [if_pos hdl]
          exact hroot
        · rw [if_neg hdl]
          simp [h]
      · exfalso
        have hlt : m₀.dropLast.length < m₀.length := dropLast_length_lt hm₀
        rcases List.mem_cons.mp h with heq | hmem'
        · rw [heq] at hlt
          omega
        · have := (List.pairwise_cons.mp hsorted).1 _ hmem'
          omega
    have happ := applyAction_mkdir_ok hm₀ hm₀abs hparok
    have hm₀nd : m₀ ∉ ms' := (List.nodup_cons.mp hnd).1
    have habs' : ∀ p ∈ ms',
        findE ({ t with entries := (m₀, Node.dirNode) :: t.entries } : FsState).entries p
          = none := by
      intro p hp
      have hne'' : m₀ ≠ p := fun h => hm₀nd (h ▸ hp)
      show findE ((m₀, Node.dirNode) :: t.entries) p = none
      simp only [findE, if_neg hne'']
      exact habs p (List.mem_cons_of_mem _ hp)
    have hpar' : ∀ p ∈ ms', p.dropLast = []
        ∨ findE ({ t with entries := (m₀, Node.dirNode) :: t.entries } : FsState).entries
            p.dropLast = some Node.dirNode
        ∨ p.dropLast ∈ ms' := by
      intro p hp
      rcases hpar p (List.mem_cons_of_mem _ hp) with h | h | h
      · exact Or.inl h
      · refine Or.inr (Or.inl ?_)
        show findE ((m₀, Node.dirNode) :: t.entries) p.dropLast = _
        by_cases hd : m₀ = p.dropLast
        · simp [findE, hd]
        · simp [findE, hd, h]
      · rcases List.mem_cons.mp h with heq | hmem'
        · refine Or.inr (Or.inl ?_)
          show findE ((m₀, Node.dirNode) :: t.entries) p.dropLast = _
          simp [findE, heq]
        · exact Or.inr (Or.inr hmem')
    obtain ⟨hr, hfind, hf⟩ :=
      ih { t with entries := (m₀, Node.dirNode) :: t.entries } hroot
        (fun p hp => hne p (List.mem_cons_of_mem _ hp))
        (List.nodup_cons.mp hnd).2
        (List.pairwise_cons.mp hsorted).2
        habs' hpar'
    refine ⟨?_, ?_, ?_⟩
    · rw [List.map_cons, runState_cons, stepState_ok happ]
      exact hr
    · intro q
      rw [List.map_cons, runState_cons, stepState_ok happ, hfind q]
      by_cases hq : q ∈ ms'
      · simp [hq, List.mem_cons]
      · by_cases hqm : q = m₀
        · subst hqm
          have hfq : findE ((q, Node.dirNode) :: t.entries) q = some Node.dirNode := by
            simp [findE]
          show (if q ∈ ms' then some Node.dirNode
              else findE ((q, Node.dirNode) :: t.entries) q) = _
          simp [hq, hfq, List.mem_cons]
        · have hne2 : m₀ ≠ q := fun h => hqm h.symm
          have hfq : findE ((m₀, Node.dirNode) :: t.entries) q = findE t.entries q := by
            simp [findE, hne2]
          show (if q ∈ ms' then some Node.dirNode
              else findE ((m₀, Node.dirNode) :: t.entries) q) = _
          simp [hq, hqm, hfq, List.mem_cons]
    · rw [List.map_cons, runFails_cons_ok happ]
      exact hf

theorem applyAction_copy_ok {t : FsState} {p : Path} {d : FileData} (hp : p ≠ [])
    (hnd : findE t.entries p ≠ some Node.dirNode) (hpar : parentOkay t p = true) :
    applyAction t (Action.copyFile p d)
      = .ok { t with entries := (p, Node.leafNode d) :: removeP t.entries p } := by
  cases hf : findE t.entries p with
  | none => simp [applyAction, hp, hf, hpar]
  | some n =>
    cases n with
    | dirNode => exact absurd hf hnd
    | leafNode fd => simp [applyAction, hp, hf, hpar]

theorem lookupC_eq_none {cs : List (Path × FileData)} {p : Path}
    (h : ∀ c ∈ cs, c.1 ≠ p) : lookupC cs p = none := by
  induction cs with
  | nil => rfl
  | cons c rest ih =>
    simp only [lookupC, if_neg (h c (List.mem_cons_self _ _))]
    exact ih (fun c hc => h c (List.mem_cons_of_mem _ hc))

theorem run_copies (cs : List (Path × FileData)) : ∀ t : FsState,
    t.rootExists = true →
    (∀ c ∈ cs, c.1 ≠ []) →
    List.Pairwise (fun c c' : Path × FileData =>
      ¬isPre c.1 c'.1 = true ∧ ¬isPre c'.1 c.1 = true) cs →
    (∀ c ∈ cs, c.1.dropLast = []
      ∨ findE t.entries c.1.dropLast = some Node.dirNode) →
    (runState t (cs.map (fun c => Action.copyFile c.1 c.2))).rootExists = true
    ∧ (∀ q, findE (runState t (cs.map (fun c => Action.copyFile c.1 c.2))).entries q
        = match lookupC cs q with
          | some fd =>
            if findE t.entries q = some Node.dirNode then some Node.dirNode
            else some (Node.leafNode fd)
          | none => findE t.entries q)
    ∧ ((∀ c ∈ cs, findE t.entries c.1 ≠ some Node.dirNode) →
        runFails t (cs.map (fun c => Action.copyFile c.1 c.2)) = []) := by
  induction cs with
  | nil =>
    intro t hroot _ _ _
    exact ⟨hroot, fun q => by simp [lookupC, runState_nil], fun _ => rfl⟩
  | cons c₀ cs' ih =>
    intro t hroot hne hfree hpar
    obtain ⟨p₀, d₀⟩ := c₀
    have hp₀ : p₀ ≠ [] := hne _ (List.mem_cons_self _ _)
    have hhead := (List.pairwise_cons.mp hfree).1
    have hfree' := (List.pairwise_cons.mp hfree).2
    have hne' := fun c hc => hne c (List.mem_cons_of_mem _ hc)
    have htail : lookupC cs' p₀ = none := by
      apply lookupC_eq_none
      intro c hc heq
      exact (hhead c hc).2 (by rw [heq]; exact isPre_refl p₀)
    by_cases hdir : findE t.entries p₀ = some Node.dirNode
    · have happ : applyAction t (Action.copyFile p₀ d₀)
          = .error "cannot copy a file over a directory" := by
        simp [applyAction, hp₀, hdir]
      obtain ⟨hr, hfind, -⟩ :=
        ih t hroot hne' hfree' (fun c hc => hpar c (List.mem_cons_of_mem _ hc))
      refine ⟨?_, ?_, ?_⟩
      · rw [List.map_cons, runState_cons, stepState_err happ]
        exact hr
      · intro q
        rw [List.map_cons, runState_cons, stepState_err happ, hfind q]
        by_cases hq : q = p₀
        · subst hq
          simp [lookupC, htail, hdir]
        · have hne2 : p₀ ≠ q := fun h => hq h.symm
          simp [lookupC, hne2]
      · intro hno
        exact absurd hdir (hno (p₀, d₀) (List.mem_cons_self _ _))
    · have hparok : parentOkay t p₀ = true := by
        rcases hpar _ (List.mem_cons_self _ _) with h | h
        · unfold parentOkay
          rw [if_pos h]
          exact hroot
        · unfold parentOkay
          by_cases hdl : (p₀ : Path).dropLast = []
          · rw [if_pos hdl]
            exact hroot
          · rw [if_neg hdl]
            simp [h]
      have happ := applyAction_copy_ok (d := d₀) hp₀ hdir hparok
      have hpar' : ∀ c ∈ cs', c.1.dropLast = []
          ∨ findE ({ t with entries :=
              (p₀, Node.leafNode d₀) :: removeP t.entries p₀ } : FsState).entries
              c.1.dropLast = some Node.dirNode := by
        intro c hc
        rcases hpar c (List.mem_cons_of_mem _ hc) with h | h
        · exact Or.inl h
        · refine Or.inr ?_
          have hpc : ¬isPre p₀ c.1 = true := (hhead c hc).1
          have hne3 : p₀ ≠ c.1.dropLast := by
            intro heq
            exact hpc (heq ▸ isPre_dropLast c.1)
          show findE ((p₀, Node.leafNode d₀) :: removeP t.entries p₀) c.1.dropLast = _
          have hne4 : c.1.dropLast ≠ p₀ := fun hh => hne3 hh.symm
          simp only [findE, if_neg hne3, findE_remove, if_neg hne4]
          exact h
      obtain ⟨hr, hfind, hfl⟩ :=
        ih { t with entries := (p₀, Node.leafNode d₀) :: removeP t.entries p₀ }
          hroot hne' hfree' hpar'
      refine ⟨?_, ?_, ?_⟩
      · rw [List.map_cons, runState_cons, stepState_ok happ]
        exact hr
      · intro q
        rw [List.map_cons, runState_cons, stepState_ok happ, hfind q]
        by_cases hq : q = p₀
        · subst hq
          have hfq : findE ((q, Node.leafNode d₀) :: removeP t.entries q) q
              = some (Node.leafNode d₀) := by
            simp [findE]
          show (match lookupC cs' q with
              | some fd =>
                if findE ((q, Node.leafNode d₀) :: removeP t.entries q) q
                    = some Node.dirNode then some Node.dirNode
                else some (Node.leafNode fd)
              | none => findE ((q, Node.leafNode d₀) :: removeP t.entries q) q) = _
          simp [lookupC, htail, hfq, hdir]
        · have hne2 : p₀ ≠ q := fun h => hq h.symm
          have hfq : findE ((p₀, Node.leafNode d₀) :: removeP t.entries p₀) q
              = findE t.entries q := by
            simp only [findE, if_neg hne2, findE_remove, if_neg hq]
          show (match lookupC cs' q with
              | some fd =>
                if findE ((p₀, Node.leafNode d₀) :: removeP t.entries p₀) q
                    = some Node.dirNode then some Node.dirNode
                else some (Node.leafNode fd)
              | none => findE ((p₀, Node.leafNode d₀) :: removeP t.entries p₀) q) = _
          rw [hfq]
          simp [lookupC, hne2]
      · intro hno
        rw [List.map_cons, runFails_cons_ok happ]
        apply hfl
        intro c hc
        have hcp : p₀ ≠ c.1 := by
          intro heq
          exact (hhead c hc).1 (heq ▸ isPre_refl p₀)
        have hcp' : c.1 ≠ p₀ := fun h => hcp h.symm
        show findE ((p₀, Node.leafNode d₀) :: removeP t.entries p₀) c.1 ≠ _
        simp only [findE, if_neg hcp, findE_remove, if_neg hcp']
        exact hno c (List.mem_cons_of_mem _ hc)

/-! ### Membership in the plan phases -/

theorem findE_filter_notin (s : Snapshot) (ds : List Path) (q : Path) :
    findE (s.filter (fun e => decide (e.1 ∉ ds))) q
      = if q ∈ ds then none else findE s q := by
  induction s with
  | nil => simp [findE]
  | cons e rest ih =>
    by_cases hin : e.1 ∈ ds
    · have hpr : decide (e.1 ∉ ds) = false := by simp [hin]
      rw [List.filter_cons, hpr]
      simp only [Bool.false_eq_true, if_false]
      rw [ih]
      by_cases heq : e.1 = q
      · subst heq
        simp [hin, findE]
      · have heq' : e.1 ≠ q := heq
        by_cases hq : q ∈ ds <;> simp [hq, findE, heq']
    · have hpr : decide (e.1 ∉ ds) = true := by simp [hin]
      rw [List.filter_cons, hpr]
      simp only [if_true]
      by_cases heq : e.1 = q
      · subst heq
        simp [hin, findE]
      · have heq' : e.1 ≠ q := heq
        rw [show findE (e :: List.filter (fun e => decide (e.1 ∉ ds)) rest) q
            = findE (List.filter (fun e => decide (e.1 ∉ ds)) rest) q by
          simp [findE, heq']]
        rw [ih]
        by_cases hq : q ∈ ds <;> simp [hq, findE, heq']

theorem delConds_dst {sn dn : Option Node} {elig : Bool}
    (h : delConds sn dn elig = true) : ∃ m, dn = some m := by
  cases dn with
  | some m => exact ⟨m, rfl⟩
  | none =>
    exfalso
    cases sn with
    | none => simp [delConds] at h
    | some n => cases n <;> simp [delConds] at h

theorem mkConds_src {sn dn : Option Node} (h : mkConds sn dn = true) :
    sn = some Node.dirNode := by
  cases sn with
  | none => cases dn <;> simp [mkConds] at h
  | some n =>
    cases n with
    | dirNode => rfl
    | leafNode d =>
      cases dn with
      | none => simp [mkConds] at h
      | some m => cases m <;> simp [mkConds] at h

theorem mkConds_dst {dn : Option Node} (h : mkConds (some Node.dirNode) dn = true) :
    dn ≠ some Node.dirNode := by
  intro hd
  rw [hd] at h
  simp [mkConds] at h

theorem copyActOf_src {sn dn : Option Node} {strat : ComparisonStrategy}
    {fd : FileData} (h : copyActOf sn dn strat = some fd) :
    sn = some (Node.leafNode fd) := by
  cases sn with
  | none => cases dn <;> simp [copyActOf] at h
  | some n =>
    cases n with
    | dirNode => cases dn <;> simp [copyActOf] at h
    | leafNode s =>
      cases dn with
      | none =>
        simp only [copyActOf, Option.some.injEq] at h
        rw [h]
      | some m =>
        cases m with
        | dirNode =>
          simp only [copyActOf, Option.some.injEq] at h
          rw [h]
        | leafNode d =>
          by_cases hk : s.kind = d.kind
          · by_cases hu : unchangedFiles strat s d
            · simp [copyActOf, hk, hu] at h
            · simp only [copyActOf, if_pos hk, if_neg hu, Option.some.injEq] at h
              rw [h]
          · simp only [copyActOf, if_neg hk, Option.some.injEq] at h
            rw [h]

theorem mem_delPaths {src dst : Snapshot} {elig : Bool} {p : Path} :
    p ∈ delPaths src dst elig
      ↔ delConds (findE src p) (findE dst p) elig = true := by
  constructor
  · intro h
    have := (List.mem_filter.mp h).2
    simpa using this
  · intro h
    obtain ⟨m, hm⟩ := delConds_dst h
    exact List.mem_filter.mpr ⟨mem_allPaths_of_dst hm, by simpa using h⟩

theorem mem_mkPaths {src dst : Snapshot} {p : Path} :
    p ∈ mkPaths src dst ↔ mkConds (findE src p) (findE dst p) = true := by
  constructor
  · intro h
    have := (List.mem_filter.mp h).2
    simpa using this
  · intro h
    exact List.mem_filter.mpr
      ⟨mem_allPaths_of_src (mkConds_src h), by simpa using h⟩

theorem mem_copyPairs {src dst : Snapshot} {strat : ComparisonStrategy}
    {p : Path} {fd : FileData} :
    (p, fd) ∈ copyPairs src dst strat
      ↔ copyActOf (findE src p) (findE dst p) strat = some fd := by
  unfold copyPairs
  rw [List.mem_filterMap]
  constructor
  · rintro ⟨a, _, hfa⟩
    rw [Option.map_eq_some'] at hfa
    obtain ⟨fd', hfd', heq⟩ := hfa
    cases heq
    exact hfd'
  · intro h
    refine ⟨p, mem_allPaths_of_src (copyActOf_src h), ?_⟩
    rw [h]
    rfl

theorem nodup_copyPairs (src dst : Snapshot) (strat : ComparisonStrategy) :
    (copyPairs src dst strat).Nodup := by
  unfold copyPairs
  apply List.Nodup.filterMap ?_ (nodup_allPaths src dst)
  intro a a' b hb hb'
  simp only [Option.mem_def, Option.map_eq_some'] at hb hb'
  obtain ⟨x, _, hxa⟩ := hb
  obtain ⟨y, _, hya⟩ := hb'
  have h1 : a = b.1 := by rw [← hxa]
  have h2 : a' = b.1 := by rw [← hya]
  rw [h1, h2]

theorem lookupC_filterMap (g : Path → Option FileData) :
    ∀ (l : List Path), l.Nodup → ∀ q,
    lookupC (l.filterMap (fun p => (g p).map (fun fd => (p, fd)))) q
      = if q ∈ l then g q else none := by
  intro l
  induction l with
  | nil =>
    intro _ q
    simp [lookupC]
  | cons p l ih =>
    intro hnd q
    have hpl : p ∉ l := (List.nodup_cons.mp hnd).1
    rw [List.filterMap_cons]
    cases hg : g p with
    | none =>
      simp only [hg, Option.map_none']
      rw [ih (List.nodup_cons.mp hnd).2 q]
      by_cases hq : q = p
      · subst hq
        simp [hpl, hg]
      · simp [hq]
    | some fd =>
      simp only [hg, Option.map_some']
      by_cases hq : q = p
      · subst hq
        simp [lookupC, hg]
      · have hne : p ≠ q := fun h => hq h.symm
        simp only [lookupC, if_neg hne]
        rw [ih (List.nodup_cons.mp hnd).2 q]
        simp [hq]

theorem lookupC_copyPairs (src dst : Snapshot) (strat : ComparisonStrategy)
    (q : Path) :
    lookupC (copyPairs src dst strat) q
      = if q ∈ allPaths src dst
        then copyActOf (findE src q) (findE dst q) strat else none :=
  lookupC_filterMap _ _ (nodup_allPaths src dst) q

theorem copyPairs_free {src dst : Snapshot} {strat : ComparisonStrategy}
    (hsrc : Wf src) :
    List.Pairwise (fun c c' : Path × FileData =>
      ¬isPre c.1 c'.1 = true ∧ ¬isPre c'.1 c.1 = true) (copyPairs src dst strat) := by
  have hnd := nodup_copyPairs src dst strat
  refine List.Pairwise.imp_of_mem ?_ hnd
  intro c c' hc hc' hne
  have hkey : ∀ (a b : Path × FileData), a ∈ copyPairs src dst strat →
      b ∈ copyPairs src dst strat → a ≠ b → ¬isPre a.1 b.1 = true := by
    intro a b ha hb hab hpre
    obtain ⟨p, fd⟩ := a
    obtain ⟨p', fd'⟩ := b
    have h1 := copyActOf_src (mem_copyPairs.mp ha)
    have h2 := copyActOf_src (mem_copyPairs.mp hb)
    by_cases hpp : p = p'
    · subst hpp
      rw [h1] at h2
      injection h2 with h2
      injection h2 with h2
      exact hab (by rw [h2])
    · have hdir : findE src p = some Node.dirNode :=
        wf_prefix_dir hsrc p' _ (mem_of_findE h2) p hpre
          (wf_ne_nil hsrc (mem_of_findE h1)) hpp
      rw [h1] at hdir
      simp at hdir
  exact ⟨hkey c c' hc hc' hne, hkey c' c hc' hc (fun h => hne h.symm)⟩

theorem delPaths_free {src dst : Snapshot} (hsrc : Wf src) (hdst : Wf dst)
    {p q : Path} (hp : p ∈ delPaths src dst false) (hq : q ∈ delPaths src dst false)
    (hne : p ≠ q) : ¬isPre p q = true ∧ ¬isPre q p = true := by
  have H : ∀ a b, a ∈ delPaths src dst false → b ∈ delPaths src dst false →
      a ≠ b → ¬isPre a b = true := by
    intro a b ha hb hab hpre
    have hda := mem_delPaths.mp ha
    have hdb := mem_delPaths.mp hb
    obtain ⟨mb, hmb⟩ := delConds_dst hdb
    obtain ⟨ma, hma⟩ := delConds_dst hda
    have hanil : a ≠ [] := wf_ne_nil hdst (mem_of_findE hma)
    have hdsta : findE dst a = some Node.dirNode :=
      wf_prefix_dir hdst b mb (mem_of_findE hmb) a hpre hanil hab
    rw [hdsta] at hda
    cases hsa : findE src a with
    | none =>
      rw [hsa] at hda
      simp [delConds] at hda
    | some na =>
      cases na with
      | dirNode =>
        rw [hsa] at hda
        simp [delConds] at hda
      | leafNode s =>
        have hsb : ∃ nb, findE src b = some nb := by
          cases hfb : findE src b with
          | some nb => exact ⟨nb, rfl⟩
          | none =>
            rw [hfb, hmb] at hdb
            simp [delConds] at hdb
        obtain ⟨nb, hnb⟩ := hsb
        have hsd : findE src a = some Node.dirNode :=
          wf_prefix_dir hsrc b nb (mem_of_findE hnb) a hpre hanil hab
        rw [hsa] at hsd
        simp at hsd
  exact ⟨H p q hp hq hne, H q p hq hp (fun h => hne h.symm)⟩

/-! ### Characterization of a synchronize run with deletion eligible -/

theorem sync_mirror_char (src : Snapshot) (dst : FsState)
    (strat : ComparisonStrategy) (hsrc : Wf src) (hdst : Wf dst.entries)
    (hroot : dst.rootExists = true) :
    (∀ p, findE (runState dst (syncPlan src dst.entries strat true)).entries p
        = mirrorExpected src dst.entries strat p)
    ∧ runFails dst (syncPlan src dst.entries strat true) = [] := by
  have hplan := syncPlan_eq src dst.entries strat true
  set n := maxDepth (rawActions src dst.entries strat true) with hn
  set dsl := lenSortDesc (delPaths src dst.entries true) n with hdsl
  set msl := lenSortAsc (mkPaths src dst.entries) n with hmsl
  set cp := copyPairs src dst.entries strat with hcp
  set sk := (rawActions src dst.entries strat true).filter isSkipA with hsk
  have hdmem : ∀ p, p ∈ dsl
      ↔ delConds (findE src p) (findE dst.entries p) true = true := by
    intro p
    rw [hdsl, mem_lenSortDesc (fun q hq => delPaths_length_le src dst.entries strat true hq),
      mem_delPaths]
  have hmmem : ∀ p, p ∈ msl
      ↔ mkConds (findE src p) (findE dst.entries p) = true := by
    intro p
    rw [hmsl, mem_lenSortAsc (fun q hq => mkPaths_length_le src dst.entries strat true hq),
      mem_mkPaths]
  have hDne : ∀ p ∈ dsl, p ≠ [] := by
    intro p hp
    obtain ⟨m, hm⟩ := delConds_dst ((hdmem p).mp hp)
    exact wf_ne_nil hdst (mem_of_findE hm)
  have hDnd : dsl.Nodup := nodup_lenSortDesc ((nodup_allPaths _ _).filter _)
  have hDsort := pairwise_lenSortDesc (delPaths src dst.entries true) n
  have hDmem : ∀ p ∈ dsl, (findE dst.entries p).isSome := by
    intro p hp
    obtain ⟨m, hm⟩ := delConds_dst ((hdmem p).mp hp)
    simp [hm]
  have hDclosed : ∀ p ∈ dsl, ∀ q m, (q, m) ∈ dst.entries → isPre p q = true →
      p ≠ q → q ∈ dsl := by
    intro p hp q m hqm hpre hne
    have hdc := (hdmem p).mp hp
    have hfq : findE dst.entries q = some m := findE_of_mem_nodup hdst.1 hqm
    apply (hdmem q).mpr
    obtain ⟨mp, hmp⟩ := delConds_dst hdc
    have hsq : findE src q = none := by
      cases hfsq : findE src q with
      | none => rfl
      | some nq =>
        exfalso
        have hpnil : p ≠ [] := hDne p hp
        have hsp : findE src p = some Node.dirNode :=
          wf_prefix_dir hsrc q nq (mem_of_findE hfsq) p hpre hpnil hne
        rw [hsp, hmp] at hdc
        cases mp with
        | dirNode => simp [delConds] at hdc
        | leafNode d =>
          have hext : hasStrictExt dst.entries p = false := wf_leaf_no_ext hdst hmp
          have hext' : hasStrictExt dst.entries p = true :=
            hasStrictExt_iff.mpr ⟨q, m, hqm, hpre, hne⟩
          rw [hext'] at hext
          exact absurd hext (by simp)
    rw [hsq, hfq]
    simp [delConds]
  obtain ⟨hr1, hent1, hf1⟩ := run_deletes_sorted dsl dst hDne hDnd hDsort hDmem hDclosed
  set t₁ := runState dst (dsl.map Action.deletePath) with ht₁
  have ht₁root : t₁.rootExists = true := hr1.trans hroot
  have hfind1 : ∀ q, findE t₁.entries q
      = if q ∈ dsl then none else findE dst.entries q := by
    intro q
    rw [hent1, findE_filter_notin]
  have hMne : ∀ p ∈ msl, p ≠ [] := by
    intro p hp
    have := mkConds_src ((hmmem p).mp hp)
    exact wf_ne_nil hsrc (mem_of_findE this)
  have hMnd : msl.Nodup := nodup_lenSortAsc ((nodup_allPaths _ _).filter _)
  have hMsort := pairwise_lenSortAsc (mkPaths src dst.entries) n
  have hMabs : ∀ p ∈ msl, findE t₁.entries p = none := by
    intro p hp
    have hmc := (hmmem p).mp hp
    have hsp := mkConds_src hmc
    rw [hfind1]
    cases hfd : findE dst.entries p with
    | none =>
      by_cases hin : p ∈ dsl
      · simp [hin]
      · simp [hin, hfd]
    | some m =>
      cases m with
      | dirNode =>
        rw [hsp, hfd] at hmc
        simp [mkConds] at hmc
      | leafNode d =>
        have hin : p ∈ dsl := (hdmem p).mpr (by rw [hsp, hfd]; simp [delConds])
        simp [hin]
  have hMpar : ∀ p ∈ msl, p.dropLast = []
      ∨ findE t₁.entries p.dropLast = some Node.dirNode ∨ p.dropLast ∈ msl := by
    intro p hp
    have hsp := mkConds_src ((hmmem p).mp hp)
    by_cases hdl : p.dropLast = []
    · exact Or.inl hdl
    · have hpdir : findE src p.dropLast = some Node.dirNode :=
        wf_parent_dir hsrc (mem_of_findE hsp) hdl
      cases hfd : findE dst.entries p.dropLast with
      | some m =>
        cases m with
        | dirNode =>
          refine Or.inr (Or.inl ?_)
          rw [hfind1]
          have hnin : p.dropLast ∉ dsl := by
            rw [hdmem, hpdir, hfd]
            simp [delConds]
          simp [hnin, hfd]
        | leafNode d =>
          refine Or.inr (Or.inr ?_)
          rw [hmmem, hpdir, hfd]
          simp [mkConds]
      | none =>
        refine Or.inr (Or.inr ?_)
        rw [hmmem, hpdir, hfd]
        simp [mkConds]
  obtain ⟨hr2, hfind2, hf2⟩ := run_mkdirs msl t₁ ht₁root hMne hMnd hMsort hMabs hMpar
  set t₂ := runState t₁ (msl.map Action.makeDirectory) with ht₂
  have hCne : ∀ c ∈ cp, c.1 ≠ [] := by
    intro c hc
    obtain ⟨p, fd⟩ := c
    exact wf_ne_nil hsrc (mem_of_findE (copyActOf_src (mem_copyPairs.mp hc)))
  have hCfree : List.Pairwise (fun c c' : Path × FileData =>
      ¬isPre c.1 c'.1 = true ∧ ¬isPre c'.1 c.1 = true) cp := by
    rw [hcp]
    exact copyPairs_free hsrc
  have hmnotleaf : ∀ (p : Path) (fd : FileData),
      findE src p = some (Node.leafNode fd) → p ∉ msl := by
    intro p fd hsp hin
    have := mkConds_src ((hmmem p).mp hin)
    rw [hsp] at this
    simp at this
  have hCpar : ∀ c ∈ cp, c.1.dropLast = []
      ∨ findE t₂.entries c.1.dropLast = some Node.dirNode := by
    intro c hc
    obtain ⟨p, fd⟩ := c
    have hsp := copyActOf_src (mem_copyPairs.mp hc)
    by_cases hdl : (p : Path).dropLast = []
    · exact Or.inl hdl
    · refine Or.inr ?_
      have hpdir : findE src p.dropLast = some Node.dirNode :=
        wf_parent_dir hsrc (mem_of_findE hsp) hdl
      rw [hfind2]
      cases hfd : findE dst.entries p.dropLast with
      | some m =>
        cases m with
        | dirNode =>
          have hnm : p.dropLast ∉ msl := by
            rw [hmmem, hpdir, hfd]
            simp [mkConds]
          have hnd2 : p.dropLast ∉ dsl := by
            rw [hdmem, hpdir, hfd]
            simp [delConds]
          rw [if_neg hnm, hfind1, if_neg hnd2, hfd]
        | leafNode d =>
          have hm : p.dropLast ∈ msl := by
            rw [hmmem, hpdir, hfd]
            simp [mkConds]
          rw [if_pos hm]
      | none =>
        have hm : p.dropLast ∈ msl := by
          rw [hmmem, hpdir, hfd]
          simp [mkConds]
        rw [if_pos hm]
  have hCnodir : ∀ c ∈ cp, findE t₂.entries c.1 ≠ some Node.dirNode := by
    intro c hc
    obtain ⟨p, fd⟩ := c
    have hsp := copyActOf_src (mem_copyPairs.mp hc)
    have hnm : (p : Path) ∉ msl := hmnotleaf p fd hsp
    rw [hfind2, if_neg hnm, hfind1]
    cases hfd : findE dst.entries p with
    | none =>
      by_cases hin : p ∈ dsl
      · simp [hin]
      · simp [hin, hfd]
    | some m =>
      cases m with
      | dirNode =>
        have hin : p ∈ dsl := by
          rw [hdmem, hsp, hfd]
          simp [delConds]
        simp [hin]
      | leafNode d =>
        by_cases hin : p ∈ dsl
        · simp [hin]
        · simp [hin, hfd]
  obtain ⟨hr3, hfind3, hf3⟩ := run_copies cp t₂ hr2 hCne hCfree hCpar
  set t₃ := runState t₂ (cp.map fun c => Action.copyFile c.1 c.2) with ht₃
  have hskips : ∀ a ∈ sk, a = Action.skip := fun a ha => mem_filter_skip ha
  obtain ⟨hs4, hf4⟩ := run_skips t₃ sk hskips
  have hrun : runState dst (syncPlan src dst.entries strat true) = t₃ := by
    rw [hplan, runState_append, runState_append, runState_append, ← ht₁, ← ht₂, ← ht₃]
    exact hs4
  refine ⟨?_, ?_⟩
  · intro q
    rw [hrun, hfind3 q]
    have hlc : lookupC cp q
        = if q ∈ allPaths src dst.entries
          then copyActOf (findE src q) (findE dst.entries q) strat else none := by
      rw [hcp, lookupC_copyPairs]
    rw [hlc]
    rw [hfind2 q, hfind1 q]
    cases hS : findE src q with
    | none =>
      have hnm : q ∉ msl := by
        rw [hmmem, hS]
        cases hfd : findE dst.entries q <;> simp [mkConds]
      have hca : copyActOf (findE src q) (findE dst.entries q) strat = none := by
        rw [hS]
        cases hfd : findE dst.entries q <;> simp [copyActOf]
      cases hD : findE dst.entries q with
      | none =>
        have hndel : q ∉ dsl := by
          rw [hdmem, hS, hD]
          simp [delConds]
        by_cases hall : q ∈ allPaths src dst.entries <;>
          simp [hall, hca, hnm, hndel, hD, mirrorExpected, hS, copyActOf]
      | some m =>
        have hdel : q ∈ dsl := by
          rw [hdmem, hS, hD]
          simp [delConds]
        have hall : q ∈ allPaths src dst.entries := mem_allPaths_of_dst hD
        simp [hall, hca, hnm, hdel, mirrorExpected, hS, hD, copyActOf]
    | some ns =>
      have hall : q ∈ allPaths src dst.entries := mem_allPaths_of_src hS
      cases ns with
      | dirNode =>
        have hca : copyActOf (findE src q) (findE dst.entries q) strat = none := by
          rw [hS]
          cases hfd : findE dst.entries q with
          | none => simp [copyActOf]
          | some m => cases m <;> simp [copyActOf]
        cases hD : findE dst.entries q with
        | none =>
          have hm : q ∈ msl := by
            rw [hmmem, hS, hD]
            simp [mkConds]
          simp [hall, hca, hm, mirrorExpected, hS, hD, copyActOf]
        | some m =>
          cases m with
          | dirNode =>
            have hnm : q ∉ msl := by
              rw [hmmem, hS, hD]
              simp [mkConds]
            have hndel : q ∉ dsl := by
              rw [hdmem, hS, hD]
              simp [delConds]
            simp [hall, hca, hnm, hndel, mirrorExpected, hS, hD, copyActOf]
          | leafNode d =>
            have hm : q ∈ msl := by
              rw [hmmem, hS, hD]
              simp [mkConds]
            simp [hall, hca, hm, mirrorExpected, hS, hD, copyActOf]
      | leafNode s =>
        have hnm : q ∉ msl := hmnotleaf q s hS
        cases hD : findE dst.entries q with
        | none =>
          have hca : copyActOf (findE src q) (findE dst.entries q) strat = some s := by
            rw [hS, hD]
            simp [copyActOf]
          have hndel : q ∉ dsl := by
            rw [hdmem, hS, hD]
            simp [delConds]
          simp [hall, hca, hnm, hndel, mirrorExpected, hS, hD, copyActOf]
        | some m =>
          cases m with
          | dirNode =>
            have hca : copyActOf (findE src q) (findE dst.entries q) strat = some s := by
              rw [hS, hD]
              simp [copyActOf]
            have hdel : q ∈ dsl := by
              rw [hdmem, hS, hD]
              simp [delConds]
            simp [hall, hca, hnm, hdel, mirrorExpected, hS, hD, copyActOf]
          | leafNode d =>
            by_cases hk : s.kind = d.kind
            · by_cases hu : unchangedFiles strat s d = true
              · have hca : copyActOf (findE src q) (findE dst.entries q) strat
                    = none := by
                  rw [hS, hD]
                  simp [copyActOf, hk, hu]
                have hndel : q ∉ dsl := by
                  rw [hdmem, hS, hD]
                  simp [delConds, hk]
                simp [hall, hca, hnm, hndel, mirrorExpected, hS, hD, hk, hu, copyActOf]
              · have hca : copyActOf (findE src q) (findE dst.entries q) strat
                    = some s := by
                  rw [hS, hD]
                  simp [copyActOf, hk, hu]
                have hndel : q ∉ dsl := by
                  rw [hdmem, hS, hD]
                  simp [delConds, hk]
                simp [hall, hca, hnm, hndel, mirrorExpected, hS, hD, hk, hu, copyActOf]
            · have hca : copyActOf (findE src q) (findE dst.entries q) strat
                  = some s := by
                rw [hS, hD]
                simp [copyActOf, hk]
              have hdel : q ∈ dsl := by
                rw [hdmem, hS, hD]
                simp [delConds, hk]
              simp [hall, hca, hnm, hdel, mirrorExpected, hS, hD, hk, copyActOf]
  · rw [hplan, runFails_append, hf1, List.nil_append, ← ht₁,
      runFails_append, hf2, List.nil_append, ← ht₂,
      runFails_append, hf3 hCnodir, List.nil_append, ← ht₃]
    exact hf4

/-! ### Characterization of a run with deletion ineligible -/

theorem sync_nodel_char (src : Snapshot) (dst : FsState)
    (strat : ComparisonStrategy) (hsrc : Wf src) (hdst : Wf dst.entries)
    (hroot : dst.rootExists = true) :
    ∀ p, findE (runState dst (syncPlan src dst.entries strat false)).entries p
        = noDelExpected src dst.entries strat p := by
  have hplan := syncPlan_eq src dst.entries strat false
  set n := maxDepth (rawActions src dst.entries strat false) with hn
  set dsl := lenSortDesc (delPaths src dst.entries false) n with hdsl
  set msl := lenSortAsc (mkPaths src dst.entries) n with hmsl
  set cp := copyPairs src dst.entries strat with hcp
  set sk := (rawActions src dst.entries strat false).filter isSkipA with hsk
  have hdmem : ∀ p, p ∈ dsl
      ↔ delConds (findE src p) (findE dst.entries p) false = true := by
    intro p
    rw [hdsl, mem_lenSortDesc (fun q hq => delPaths_length_le src dst.entries strat false hq),
      mem_delPaths]
  have hmmem : ∀ p, p ∈ msl
      ↔ mkConds (findE src p) (findE dst.entries p) = true := by
    intro p
    rw [hmsl, mem_lenSortAsc (fun q hq => mkPaths_length_le src dst.entries strat false hq),
      mem_mkPaths]
  have hDne : ∀ p ∈ dsl, p ≠ [] := by
    intro p hp
    obtain ⟨m, hm⟩ := delConds_dst ((hdmem p).mp hp)
    exact wf_ne_nil hdst (mem_of_findE hm)
  have hDnd : dsl.Nodup := nodup_lenSortDesc ((nodup_allPaths _ _).filter _)
  have hdmem' : ∀ p, p ∈ dsl ↔ p ∈ delPaths src dst.entries false := by
    intro p
    rw [hdsl, mem_lenSortDesc (fun q hq => delPaths_length_le src dst.entries strat false hq)]
  have hDfree : List.Pairwise
      (fun p q : Path => ¬isPre p q = true ∧ ¬isPre q p = true) dsl := by
    refine List.Pairwise.imp_of_mem ?_ hDnd
    intro a b ha hb hne
    exact delPaths_free hsrc hdst ((hdmem' a).mp ha) ((hdmem' b).mp hb) hne
  obtain ⟨hr1, hfind1⟩ := run_deletes_free dsl dst hDne hDfree
  set t₁ := runState dst (dsl.map Action.deletePath) with ht₁
  have ht₁root : t₁.rootExists = true := hr1.trans hroot
  have hMne : ∀ p ∈ msl, p ≠ [] := by
    intro p hp
    have := mkConds_src ((hmmem p).mp hp)
    exact wf_ne_nil hsrc (mem_of_findE this)
  have hMnd : msl.Nodup := nodup_lenSortAsc ((nodup_allPaths _ _).filter _)
  have hMsort := pairwise_lenSortAsc (mkPaths src dst.entries) n
  have hMabs : ∀ p ∈ msl, findE t₁.entries p = none := by
    intro p hp
    have hmc := (hmmem p).mp hp
    have hsp := mkConds_src hmc
    rw [hfind1]
    cases hfd : findE dst.entries p with
    | none =>
      by_cases hin : p ∈ dsl ∧ delOK dst.entries p = true
      · simp [hin]
      · simp [hin, hfd]
    | some m =>
      cases m with
      | dirNode =>
        rw [hsp, hfd] at hmc
        simp [mkConds] at hmc
      | leafNode d =>
        have hin : p ∈ dsl := (hdmem p).mpr (by rw [hsp, hfd]; simp [delConds])
        have hok : delOK dst.entries p = true := by
          unfold delOK
          rw [hfd]
        simp [hin, hok]
  have hMpar : ∀ p ∈ msl, p.dropLast = []
      ∨ findE t₁.entries p.dropLast = some Node.dirNode ∨ p.dropLast ∈ msl := by
    intro p hp
    have hsp := mkConds_src ((hmmem p).mp hp)
    by_cases hdl : p.dropLast = []
    · exact Or.inl hdl
    · have hpdir : findE src p.dropLast = some Node.dirNode :=
        wf_parent_dir hsrc (mem_of_findE hsp) hdl
      cases hfd : findE dst.entries p.dropLast with
      | some m =>
        cases m with
        | dirNode =>
          refine Or.inr (Or.inl ?_)
          rw [hfind1]
          have hnin : p.dropLast ∉ dsl := by
            rw [hdmem, hpdir, hfd]
            simp [delConds]
          simp [hnin, hfd]
        | leafNode d =>
          refine Or.inr (Or.inr ?_)
          rw [hmmem, hpdir, hfd]
          simp [mkConds]
      | none =>
        refine Or.inr (Or.inr ?_)
        rw [hmmem, hpdir, hfd]
        simp [mkConds]
  obtain ⟨hr2, hfind2, hf2⟩ := run_mkdirs msl t₁ ht₁root hMne hMnd hMsort hMabs hMpar
  set t₂ := runState t₁ (msl.map Action.makeDirectory) with ht₂
  have hCne : ∀ c ∈ cp, c.1 ≠ [] := by
    intro c hc
    obtain ⟨p, fd⟩ := c
    exact wf_ne_nil hsrc (mem_of_findE (copyActOf_src (mem_copyPairs.mp hc)))
  have hCfree : List.Pairwise (fun c c' : Path × FileData =>
      ¬isPre c.1 c'.1 = true ∧ ¬isPre c'.1 c.1 = true) cp := by
    rw [hcp]
    exact copyPairs_free hsrc
  have hmnotleaf : ∀ (p : Path) (fd : FileData),
      findE src p = some (Node.leafNode fd) → p ∉ msl := by
    intro p fd hsp hin
    have := mkConds_src ((hmmem p).mp hin)
    rw [hsp] at this
    simp at this
  have hCpar : ∀ c ∈ cp, c.1.dropLast = []
      ∨ findE t₂.entries c.1.dropLast = some Node.dirNode := by
    intro c hc
    obtain ⟨p, fd⟩ := c
    have hsp := copyActOf_src (mem_copyPairs.mp hc)
    by_cases hdl : (p : Path).dropLast = []
    · exact Or.inl hdl
    · refine Or.inr ?_
      have hpdir : findE src p.dropLast = some Node.dirNode :=
        wf_parent_dir hsrc (mem_of_findE hsp) hdl
      rw [hfind2]
      cases hfd : findE dst.entries p.dropLast with
      | some m =>
        cases m with
        | dirNode =>
          have hnm : p.dropLast ∉ msl := by
            rw [hmmem, hpdir, hfd]
            simp [mkConds]
          have hnd2 : p.dropLast ∉ dsl := by
            rw [hdmem, hpdir, hfd]
            simp [delConds]
          rw [if_neg hnm, hfind1]
          simp [hnd2, hfd]
        | leafNode d =>
          have hm : p.dropLast ∈ msl := by
            rw [hmmem, hpdir, hfd]
            simp [mkConds]
          rw [if_pos hm]
      | none =>
        have hm : p.dropLast ∈ msl := by
          rw [hmmem, hpdir, hfd]
          simp [mkConds]
        rw [if_pos hm]
  obtain ⟨hr3, hfind3, -⟩ := run_copies cp t₂ hr2 hCne hCfree hCpar
  set t₃ := runState t₂ (cp.map fun c => Action.copyFile c.1 c.2) with ht₃
  have hskips : ∀ a ∈ sk, a = Action.skip := fun a ha => mem_filter_skip ha
  obtain ⟨hs4, hf4⟩ := run_skips t₃ sk hskips
  have hrun : runState dst (syncPlan src dst.entries strat false) = t₃ := by
    rw [hplan, runState_append, runState_append, runState_append, ← ht₁, ← ht₂, ← ht₃]
    exact hs4
  intro q
  rw [hrun, hfind3 q]
  have hlc : lookupC cp q
      = if q ∈ allPaths src dst.entries
        then copyActOf (findE src q) (findE dst.entries q) strat else none := by
    rw [hcp, lookupC_copyPairs]
  rw [hlc, hfind2 q, hfind1 q]
  cases hS : findE src q with
  | none =>
    have hnm : q ∉ msl := by
      rw [hmmem, hS]
      cases hfd : findE dst.entries q <;> simp [mkConds]
    have hndel : q ∉ dsl := by
      rw [hdmem, hS]
      cases hfd : findE dst.entries q <;> simp [delConds]
    have hca : copyActOf (findE src q) (findE dst.entries q) strat = none := by
      rw [hS]
      cases hfd : findE dst.entries q <;> simp [copyActOf]
    by_cases hall : q ∈ allPaths src dst.entries <;>
      simp [hall, hca, hnm, hndel, noDelExpected, hS, copyActOf]
  | some ns =>
    have hall : q ∈ allPaths src dst.entries := mem_allPaths_of_src hS
    cases ns with
    | dirNode =>
      have hca : copyActOf (findE src q) (findE dst.entries q) strat = none := by
        rw [hS]
        cases hfd : findE dst.entries q with
        | none => simp [copyActOf]
        | some m => cases m <;> simp [copyActOf]
      cases hD : findE dst.entries q with
      | none =>
        have hm : q ∈ msl := by
          rw [hmmem, hS, hD]
          simp [mkConds]
        simp [hall, hca, hm, noDelExpected, hS, hD, copyActOf]
      | some m =>
        cases m with
        | dirNode =>
          have hnm : q ∉ msl := by
            rw [hmmem, hS, hD]
            simp [mkConds]
          have hndel : q ∉ dsl := by
            rw [hdmem, hS, hD]
            simp [delConds]
          simp [hall, hca, hnm, hndel, noDelExpected, hS, hD, copyActOf]
        | leafNode d =>
          have hm : q ∈ msl := by
            rw [hmmem, hS, hD]
            simp [mkConds]
          simp [hall, hca, hm, noDelExpected, hS, hD, copyActOf]
    | leafNode s =>
      have hnm : q ∉ msl := hmnotleaf q s hS
      cases hD : findE dst.entries q with
      | none =>
        have hca : copyActOf (findE src q) (findE dst.entries q) strat = some s := by
          rw [hS, hD]
          simp [copyActOf]
        have hndel : q ∉ dsl := by
          rw [hdmem, hS, hD]
          simp [delConds]
        simp [hall, hca, hnm, hndel, noDelExpected, hS, hD, copyActOf]
      | some m =>
        cases m with
        | dirNode =>
          have hca : copyActOf (findE src q) (findE dst.entries q) strat = some s := by
            rw [hS, hD]
            simp [copyActOf]
          have hdel : q ∈ dsl := by
            rw [hdmem, hS, hD]
            simp [delConds]
          have hdok : delOK dst.entries q = !hasStrictExt dst.entries q := by
            unfold delOK
            rw [hD]
          cases hx : hasStrictExt dst.entries q with
          | true =>
            have hcond : ¬(q ∈ dsl ∧ delOK dst.entries q = true) := by
              rintro ⟨-, hc⟩
              rw [hdok, hx] at hc
              simp at hc
            simp [hall, hca, hnm, hcond, noDelExpected, hS, hD, hx, copyActOf]
          | false =>
            have hcond : q ∈ dsl ∧ delOK dst.entries q = true := by
              refine ⟨hdel, ?_⟩
              rw [hdok, hx]
              rfl
            simp [hall, hca, hnm, hcond, noDelExpected, hS, hD, hx, copyActOf]
        | leafNode d =>
          have hdok : delOK dst.entries q = true := by
            unfold delOK
            rw [hD]
          by_cases hk : s.kind = d.kind
          · by_cases hu : unchangedFiles strat s d = true
            · have hca : copyActOf (findE src q) (findE dst.entries q) strat
                  = none := by
                rw [hS, hD]
                simp [copyActOf, hk, hu]
              have hndel : q ∉ dsl := by
                rw [hdmem, hS, hD]
                simp [delConds, hk]
              simp [hall, hca, hnm, hndel, noDelExpected, hS, hD, hk, hu, copyActOf]
            · have hca : copyActOf (findE src q) (findE dst.entries q) strat
                  = some s := by
                rw [hS, hD]
                simp [copyActOf, hk, hu]
              have hndel : q ∉ dsl := by
                rw [hdmem, hS, hD]
                simp [delConds, hk]
              simp [hall, hca, hnm, hndel, noDelExpected, hS, hD, hk, hu, copyActOf]
          · have hca : copyActOf (findE src q) (findE dst.entries q) strat
                = some s := by
              rw [hS, hD]
              simp [copyActOf, hk]
            have hdel : q ∈ dsl := by
              rw [hdmem, hS, hD]
              simp [delConds, hk]
            have hcond : q ∈ dsl ∧ delOK dst.entries q = true := ⟨hdel, hdok⟩
            simp [hall, hca, hnm, hcond, noDelExpected, hS, hD, hk, copyActOf]

/-! ### Reading the expected-result tables -/

theorem unchangedFiles_refl (strat : ComparisonStrategy) (s : FileData) :
    unchangedFiles strat s s = true := by
  cases strat <;> simp [unchangedFiles, digest]

theorem mirrorExpected_isSome (src dstE : Snapshot) (strat : ComparisonStrategy)
    (p : Path) :
    (mirrorExpected src dstE strat p).isSome ↔ (findE src p).isSome := by
  cases hS : findE src p with
  | none => simp [mirrorExpected, hS]
  | some ns =>
    cases ns with
    | dirNode => simp [mirrorExpected, hS]
    | leafNode s =>
      cases hD : findE dstE p with
      | none => simp [mirrorExpected, hS, hD]
      | some m =>
        cases m with
        | dirNode => simp [mirrorExpected, hS, hD]
        | leafNode d =>
          by_cases h : (s.kind = d.kind && unchangedFiles strat s d) = true <;>
            simp [mirrorExpected, hS, hD, h]

theorem mirrorExpected_matches {src dstE : Snapshot} {strat : ComparisonStrategy}
    {p : Path} {m nn : Node} (hm : findE src p = some m)
    (he : mirrorExpected src dstE strat p = some nn) :
    nodeMatches strat m nn := by
  cases m with
  | dirNode =>
    have : mirrorExpected src dstE strat p = some Node.dirNode := by
      cases hD : findE dstE p <;> simp [mirrorExpected, hm, hD]
    rw [this] at he
    injection he with he
    rw [← he]
    trivial
  | leafNode s =>
    cases hD : findE dstE p with
    | none =>
      have : mirrorExpected src dstE strat p = some (Node.leafNode s) := by
        simp [mirrorExpected, hm, hD]
      rw [this] at he
      injection he with he
      rw [← he]
      exact ⟨rfl, unchangedFiles_refl strat s⟩
    | some md =>
      cases md with
      | dirNode =>
        have : mirrorExpected src dstE strat p = some (Node.leafNode s) := by
          simp [mirrorExpected, hm, hD]
        rw [this] at he
        injection he with he
        rw [← he]
        exact ⟨rfl, unchangedFiles_refl strat s⟩
      | leafNode d =>
        by_cases h : (s.kind = d.kind && unchangedFiles strat s d) = true
        · have : mirrorExpected src dstE strat p = some (Node.leafNode d) := by
            simp only [mirrorExpected, hm, hD, h, if_true]
          rw [this] at he
          injection he with he
          rw [← he]
          rw [Bool.and_eq_true, decide_eq_true_eq] at h
          exact ⟨h.1, h.2⟩
        · have : mirrorExpected src dstE strat p = some (Node.leafNode s) := by
            simp [mirrorExpected, hm, hD, h]
          rw [this] at he
          injection he with he
          rw [← he]
          exact ⟨rfl, unchangedFiles_refl strat s⟩

theorem noDelExpected_isSome_of_dst {src dstE : Snapshot}
    {strat : ComparisonStrategy} {p : Path}
    (h : (findE dstE p).isSome) : (noDelExpected src dstE strat p).isSome := by
  cases hS : findE src p with
  | none => simpa [noDelExpected, hS] using h
  | some ns =>
    cases ns with
    | dirNode => simp [noDelExpected, hS]
    | leafNode s =>
      cases hD : findE dstE p with
      | none => simp [noDelExpected, hS, hD]
      | some m =>
        cases m with
        | dirNode =>
          by_cases hx : hasStrictExt dstE p = true <;>
            simp [noDelExpected, hS, hD, hx]
        | leafNode d =>
          by_cases hk : (s.kind = d.kind && unchangedFiles strat s d) = true <;>
            simp [noDelExpected, hS, hD, hk]

theorem noDelExpected_isSome_of_src {src dstE : Snapshot}
    {strat : ComparisonStrategy} {p : Path}
    (h : (findE src p).isSome) : (noDelExpected src dstE strat p).isSome := by
  cases hS : findE src p with
  | none => rw [hS] at h; simp at h
  | some ns =>
    cases ns with
    | dirNode => simp [noDelExpected, hS]
    | leafNode s =>
      cases hD : findE dstE p with
      | none => simp [noDelExpected, hS, hD]
      | some m =>
        cases m with
        | dirNode =>
          by_cases hx : hasStrictExt dstE p = true <;>
            simp [noDelExpected, hS, hD, hx]
        | leafNode d =>
          by_cases hk : (s.kind = d.kind && unchangedFiles strat s d) = true <;>
            simp [noDelExpected, hS, hD, hk]

theorem noDelExpected_empty (src : Snapshot) (strat : ComparisonStrategy)
    (p : Path) : noDelExpected src [] strat p = findE src p := by
  cases hS : findE src p with
  | none => simp [noDelExpected, hS, findE]
  | some ns =>
    cases ns with
    | dirNode => simp [noDelExpected, hS, findE]
    | leafNode s => simp [noDelExpected, hS, findE]

/-! ### Claim C1: synchronize without NoDelete mirrors the source -/

/-- C1: for every source tree and destination, after `synchronize` with the
NoDelete flag unset and every action succeeding, source and destination are
mutually mirrored: a path exists in the final destination exactly when it
exists in the source, and where both carry an entry the entries match under
the active comparison strategy. -/
theorem claim_C1_synchronize_mirror (src : Snapshot) (dst : FsState)
    (flags : List Flag) (hsrc : Wf src) (hdst : Wf dst.entries)
    (hroot : dst.rootExists = true) (hnodel : Flag.noDelete ∉ flags)
    (_hsucc : (core.synchronize src dst flags).2 = []) :
    ∀ p, ((findE (core.synchronize src dst flags).1.entries p).isSome
        ↔ (findE src p).isSome)
      ∧ ∀ m nn, findE src p = some m →
          findE (core.synchronize src dst flags).1.entries p = some nn →
          nodeMatches (strategyOf flags) m nn := by
  have hfst : (core.synchronize src dst flags).1
      = runState dst (syncPlan src dst.entries (strategyOf flags) true) := by
    unfold core.synchronize
    simp [hnodel]
  obtain ⟨hchar, -⟩ := sync_mirror_char src dst (strategyOf flags) hsrc hdst hroot
  intro p
  rw [hfst, hchar p]
  exact ⟨mirrorExpected_isSome src dst.entries (strategyOf flags) p,
    fun m nn hm he => mirrorExpected_matches hm he⟩

/-- Witness for C1 at the concrete sample trees and the path `b`. -/
theorem claim_C1_witness :
    ((findE (core.synchronize srcSample dstSample []).1.entries ["b"]).isSome
        ↔ (findE srcSample ["b"]).isSome)
    ∧ nodeMatches (strategyOf []) (Node.leafNode fileB) (Node.leafNode fileB) :=
  ⟨(claim_C1_synchronize_mirror srcSample dstSample [] (by decide) (by decide)
      rfl (by decide) rfl ["b"]).1,
    (claim_C1_synchronize_mirror srcSample dstSample [] (by decide) (by decide)
      rfl (by decide) rfl ["b"]).2 (Node.leafNode fileB) (Node.leafNode fileB)
      (by decide) (by decide)⟩

/-! ### Claim C2: synchronize with NoDelete obeys the superset law -/

/-- C2: with the NoDelete flag set, every path of the original destination
still exists after the run (no path from the destination is removed), and
every source path exists in the destination afterward. -/
theorem claim_C2_nodelete_superset (src : Snapshot) (dst : FsState)
    (flags : List Flag) (hsrc : Wf src) (hdst : Wf dst.entries)
    (hroot : dst.rootExists = true) (hnodel : Flag.noDelete ∈ flags) :
    (∀ p, (findE dst.entries p).isSome →
        (findE (core.synchronize src dst flags).1.entries p).isSome)
    ∧ ∀ p, (findE src p).isSome →
        (findE (core.synchronize src dst flags).1.entries p).isSome := by
  have hfst : (core.synchronize src dst flags).1
      = runState dst (syncPlan src dst.entries (strategyOf flags) false) := by
    unfold core.synchronize
    simp [hnodel]
  have hchar := sync_nodel_char src dst (strategyOf flags) hsrc hdst hroot
  constructor
  · intro p hp
    rw [hfst, hchar p]
    exact noDelExpected_isSome_of_dst hp
  · intro p hp
    rw [hfst, hchar p]
    exact noDelExpected_isSome_of_src hp

/-- Witness for C2 at the concrete sample trees: the destination-only file
`c` survives and the source file `b` arrives. -/
theorem claim_C2_witness :
    (findE (core.synchronize srcSample dstSample [Flag.noDelete]).1.entries
        ["c"]).isSome
    ∧ (findE (core.synchronize srcSample dstSample [Flag.noDelete]).1.entries
        ["b"]).isSome :=
  ⟨(claim_C2_nodelete_superset srcSample dstSample [Flag.noDelete] (by decide)
      (by decide) rfl (by decide)).1 ["c"] (by decide),
    (claim_C2_nodelete_superset srcSample dstSample [Flag.noDelete] (by decide)
      (by decide) rfl (by decide)).2 ["b"] (by decide)⟩

/-! ### Claim C3: copy fills an empty destination and never deletes -/

/-- C3: for a fresh empty destination, after `copy` the destination equals
the source exactly (so a structural and content diff is empty under the
Metadata and the Secure strategy alike, the strategy being whatever the flag
set selects); and for any destination, destination-only content (any path
absent from the source) is left untouched, never deleted. -/
theorem claim_C3_copy (src : Snapshot) (dst : FsState) (flags : List Flag)
    (hsrc : Wf src) (hdst : Wf dst.entries) (hroot : dst.rootExists = true) :
    (dst.entries = [] →
      ∀ p, findE (core.copy src dst flags).1.entries p = findE src p)
    ∧ ∀ p, findE src p = none →
        findE (core.copy src dst flags).1.entries p = findE dst.entries p := by
  have hchar := sync_nodel_char src dst (strategyOf flags) hsrc hdst hroot
  have hfst : (core.copy src dst flags).1
      = runState dst (syncPlan src dst.entries (strategyOf flags) false) := rfl
  constructor
  · intro hempty p
    rw [hfst, hchar p, hempty]
    exact noDelExpected_empty src (strategyOf flags) p
  · intro p hp
    rw [hfst, hchar p]
    simp [noDelExpected, hp]

/-- Witness for C3: copying the sample source into an empty destination
reproduces the file `a/f`, and an absent path stays absent. -/
theorem claim_C3_witness :
    findE (core.copy srcSample { rootExists := true, entries := [] } []).1.entries
        ["a", "f"] = findE srcSample ["a", "f"]
    ∧ findE (core.copy srcSample { rootExists := true, entries := [] } []).1.entries
        ["zzz"] = findE ({ rootExists := true, entries := [] } : FsState).entries
        ["zzz"] :=
  ⟨(claim_C3_copy srcSample { rootExists := true, entries := [] } [] (by decide)
      (by decide) rfl).1 rfl ["a", "f"],
    (claim_C3_copy srcSample { rootExists := true, entries := [] } [] (by decide)
      (by decide) rfl).2 ["zzz"] (by decide)⟩

/-! ### Extensional equality of filesystem states -/

theorem extState_refl (t : FsState) : ExtState t t := ⟨rfl, fun _ => rfl⟩

theorem extState_symm {t₁ t₂ : FsState} (h : ExtState t₁ t₂) : ExtState t₂ t₁ :=
  ⟨h.1.symm, fun p => (h.2 p).symm⟩

theorem extState_trans {t₁ t₂ t₃ : FsState} (h₁ : ExtState t₁ t₂)
    (h₂ : ExtState t₂ t₃) : ExtState t₁ t₃ :=
  ⟨h₁.1.trans h₂.1, fun p => (h₁.2 p).trans (h₂.2 p)⟩

theorem extState_of_eq {t₁ t₂ : FsState} (h : t₁ = t₂) : ExtState t₁ t₂ := by
  rw [h]
  exact extState_refl t₂

theorem hasStrictExt_iff_findE {s : Snapshot} {p : Path} :
    hasStrictExt s p = true
      ↔ ∃ q, isPre p q = true ∧ p ≠ q ∧ (findE s q).isSome := by
  rw [hasStrictExt_iff]
  constructor
  · rintro ⟨q, n, hm, h1, h2⟩
    exact ⟨q, h1, h2, findE_isSome_of_mem hm⟩
  · rintro ⟨q, h1, h2, h3⟩
    obtain ⟨n, hn⟩ := Option.isSome_iff_exists.mp h3
    exact ⟨q, n, mem_of_findE hn, h1, h2⟩

theorem hasStrictExt_ext {s₁ s₂ : Snapshot} (h : ExtS s₁ s₂) (p : Path) :
    hasStrictExt s₁ p = hasStrictExt s₂ p := by
  cases hb : hasStrictExt s₂ p
  · cases hb1 : hasStrictExt s₁ p
    · rfl
    · exfalso
      obtain ⟨q, h1, h2, h3⟩ := hasStrictExt_iff_findE.mp hb1
      rw [h q] at h3
      rw [hasStrictExt_iff_findE.mpr ⟨q, h1, h2, h3⟩] at hb
      exact absurd hb (by simp)
  · obtain ⟨q, h1, h2, h3⟩ := hasStrictExt_iff_findE.mp hb
    rw [← h q] at h3
    exact hasStrictExt_iff_findE.mpr ⟨q, h1, h2, h3⟩

theorem isEmpty_iff_findE {s : Snapshot} :
    s.isEmpty = true ↔ ∀ p, findE s p = none := by
  cases s with
  | nil => simp [findE]
  | cons e rest =>
    simp only [List.isEmpty_cons]
    constructor
    · intro h
      simp at h
    · intro hall
      have := hall e.1
      simp [findE] at this

theorem isEmpty_ext {s₁ s₂ : Snapshot} (h : ExtS s₁ s₂) :
    s₁.isEmpty = s₂.isEmpty := by
  cases hb : s₂.isEmpty
  · cases hb1 : s₁.isEmpty
    · rfl
    · exfalso
      have hall := isEmpty_iff_findE.mp hb1
      have : s₂.isEmpty = true := isEmpty_iff_findE.mpr (fun p => (h p).symm.trans (hall p))
      rw [this] at hb
      exact absurd hb (by simp)
  · have hall := isEmpty_iff_findE.mp hb
    exact isEmpty_iff_findE.mpr (fun p => (h p).trans (hall p))

theorem parentOkay_ext {t₁ t₂ : FsState} (h : ExtState t₁ t₂) (p : Path) :
    parentOkay t₁ p = parentOkay t₂ p := by
  unfold parentOkay
  rw [h.1]
  by_cases hdl : p.dropLast = [] <;> simp [hdl, h.2 p.dropLast]

theorem extS_cons {s₁ s₂ : Snapshot} (h : ExtS s₁ s₂) (r : Path) (n : Node) :
    ExtS ((r, n) :: s₁) ((r, n) :: s₂) := by
  intro q
  by_cases hr : r = q <;> simp [findE, hr, h q]

theorem extS_removeP {s₁ s₂ : Snapshot} (h : ExtS s₁ s₂) (r : Path) :
    ExtS (removeP s₁ r) (removeP s₂ r) := by
  intro q
  rw [findE_remove, findE_remove, h q]

/-! ### Normal forms of one scheduler step -/

/-- The effective state transformer of a non-root `MakeDirectory`. -/
def mkdirStep (t : FsState) (p : Path) : FsState :=
  if findE t.entries p = none ∧ parentOkay t p = true
  then { t with entries := (p, Node.dirNode) :: t.entries } else t

/-- The effective state transformer of a non-root `CopyFile`. -/
def copyStep (t : FsState) (p : Path) (d : FileData) : FsState :=
  if findE t.entries p ≠ some Node.dirNode ∧ parentOkay t p = true
  then { t with entries := (p, Node.leafNode d) :: removeP t.entries p } else t

/-- The effective state transformer of a non-root `DeletePath`. -/
def delStep (t : FsState) (p : Path) : FsState :=
  if delOK t.entries p = true then { t with entries := removeP t.entries p } else t

theorem stepState_mkdir {t : FsState} {p : Path} (hp : p ≠ []) :
    stepState t (Action.makeDirectory p) = mkdirStep t p := by
  unfold stepState mkdirStep
  cases hf : findE t.entries p with
  | some n => cases n <;> simp [applyAction, hp, hf]
  | none => by_cases hpar : parentOkay t p = true <;> simp [applyAction, hp, hf, hpar]

theorem stepState_copy {t : FsState} {p : Path} {d : FileData} (hp : p ≠ []) :
    stepState t (Action.copyFile p d) = copyStep t p d := by
  unfold stepState copyStep
  cases hf : findE t.entries p with
  | some n =>
    cases n with
    | dirNode => simp [applyAction, hp, hf]
    | leafNode fd => by_cases hpar : parentOkay t p = true <;> simp [applyAction, hp, hf, hpar]
  | none => by_cases hpar : parentOkay t p = true <;> simp [applyAction, hp, hf, hpar]

theorem stepState_delete {t : FsState} {p : Path} (hp : p ≠ []) :
    stepState t (Action.deletePath p) = delStep t p := by
  unfold delStep
  by_cases hok : delOK t.entries p = true
  · rw [stepState_ok (applyAction_delete_ok hp hok), if_pos hok]
  · have hok' : delOK t.entries p = false := by
      cases hb : delOK t.entries p
      · rfl
      · exact absurd hb hok
    obtain ⟨e, happ⟩ := applyAction_delete_err hp hok'
    rw [stepState_err happ, if_neg hok]

theorem stepState_skip (t : FsState) : stepState t Action.skip = t := rfl

/-! ### One step respects extensional equality -/

theorem delOK_ext {s₁ s₂ : Snapshot} (h : ExtS s₁ s₂) (p : Path) :
    delOK s₁ p = delOK s₂ p := by
  unfold delOK
  rw [h p, hasStrictExt_ext h p]

theorem stepState_ext {t₁ t₂ : FsState} (h : ExtState t₁ t₂) (a : Action) :
    ExtState (stepState t₁ a) (stepState t₂ a) := by
  cases a with
  | skip => exact h
  | makeDirectory p =>
    by_cases hp : p = []
    · subst hp
      have e1 : stepState t₁ (Action.makeDirectory []) = { t₁ with rootExists := true } := by
        simp [stepState, applyAction]
      have e2 : stepState t₂ (Action.makeDirectory []) = { t₂ with rootExists := true } := by
        simp [stepState, applyAction]
      rw [e1, e2]
      exact ⟨rfl, h.2⟩
    · rw [stepState_mkdir hp, stepState_mkdir hp]
      unfold mkdirStep
      rw [show findE t₁.entries p = findE t₂.entries p from h.2 p,
        parentOkay_ext h p]
      by_cases hc : findE t₂.entries p = none ∧ parentOkay t₂ p = true
      · rw [if_pos hc, if_pos hc]
        exact ⟨h.1, extS_cons h.2 p Node.dirNode⟩
      · rw [if_neg hc, if_neg hc]
        exact h
  | copyFile p d =>
    by_cases hp : p = []
    · subst hp
      have e1 : stepState t₁ (Action.copyFile [] d) = t₁ := by
        simp [stepState, applyAction]
      have e2 : stepState t₂ (Action.copyFile [] d) = t₂ := by
        simp [stepState, applyAction]
      rw [e1, e2]
      exact h
    · rw [stepState_copy hp, stepState_copy hp]
      unfold copyStep
      rw [show findE t₁.entries p = findE t₂.entries p from h.2 p,
        parentOkay_ext h p]
      by_cases hc : findE t₂.entries p ≠ some Node.dirNode ∧ parentOkay t₂ p = true
      · rw [if_pos hc, if_pos hc]
        exact ⟨h.1, extS_cons (extS_removeP h.2 p) p (Node.leafNode d)⟩
      · rw [if_neg hc, if_neg hc]
        exact h
  | deletePath p =>
    by_cases hp : p = []
    · subst hp
      have hcond : (t₁.rootExists && t₁.entries.isEmpty)
          = (t₂.rootExists && t₂.entries.isEmpty) := by
        rw [h.1, isEmpty_ext h.2]
      cases hb : (t₂.rootExists && t₂.entries.isEmpty)
      · have e1 : stepState t₁ (Action.deletePath []) = t₁ := by
          simp [stepState, applyAction, hcond.trans hb]
        have e2 : stepState t₂ (Action.deletePath []) = t₂ := by
          simp [stepState, applyAction, hb]
        rw [e1, e2]
        exact h
      · have e1 : stepState t₁ (Action.deletePath [])
            = { rootExists := false, entries := [] } := by
          simp [stepState, applyAction, hcond.trans hb]
        have e2 : stepState t₂ (Action.deletePath [])
            = { rootExists := false, entries := [] } := by
          simp [stepState, applyAction, hb]
        rw [e1, e2]
        exact extState_refl _
    · rw [stepState_delete hp, stepState_delete hp]
      unfold delStep
      rw [delOK_ext h.2 p]
      by_cases hc : delOK t₂.entries p = true
      · rw [if_pos hc, if_pos hc]
        exact ⟨h.1, extS_removeP h.2 p⟩
      · rw [if_neg hc, if_neg hc]
        exact h

theorem runState_ext {t₁ t₂ : FsState} (h : ExtState t₁ t₂) (l : List Action) :
    ExtState (runState t₁ l) (runState t₂ l) := by
  induction l generalizing t₁ t₂ with
  | nil => exact h
  | cons a rest ih =>
    rw [runState_cons, runState_cons]
    exact ih (stepState_ext h a)

/-! ### Independent actions commute (up to extensional equality) -/

theorem removeP_comm (s : Snapshot) (p q : Path) :
    removeP (removeP s p) q = removeP (removeP s q) p := by
  rw [removeP_eq_filter, removeP_eq_filter, removeP_eq_filter, removeP_eq_filter,
    List.filter_filter, List.filter_filter]
  apply List.filter_congr
  intro e _
  rw [Bool.and_comm]

theorem indepA_symm {a b : Action} (h : indepA a b) : indepA b a := by
  cases a <;> cases b <;> simp [indepA] at h ⊢ <;> tauto

theorem stepState_comm {t : FsState} {a b : Action} (h : indepA a b) :
    ExtState (stepState (stepState t a) b) (stepState (stepState t b) a) := by
  cases a with
  | skip =>
    rw [stepState_skip, stepState_skip]
    exact extState_refl _
  | deletePath p =>
    cases b with
    | skip =>
      rw [stepState_skip, stepState_skip]
      exact extState_refl _
    | makeDirectory q => simp [indepA] at h
    | copyFile q d => simp [indepA] at h
    | deletePath q =>
      obtain ⟨hp, hq, hpq, hqp⟩ := h
      have hpq' : p ≠ q := fun hh => hpq (hh ▸ isPre_refl p)
      have hqp' : q ≠ p := fun hh => hpq' hh.symm
      simp only [stepState_delete hp, stepState_delete hq]
      have hOKq : delOK (removeP t.entries p) q = delOK t.entries q := by
        unfold delOK
        have h1 : findE (removeP t.entries p) q = findE t.entries q := by
          rw [findE_remove]
          simp [hqp']
        have h2 : hasStrictExt (removeP t.entries p) q = hasStrictExt t.entries q :=
          hasStrictExt_remove (by rintro ⟨hc, -⟩; exact hqp hc)
        rw [h1, h2]
      have hOKp : delOK (removeP t.entries q) p = delOK t.entries p := by
        unfold delOK
        have h1 : findE (removeP t.entries q) p = findE t.entries p := by
          rw [findE_remove]
          simp [hpq']
        have h2 : hasStrictExt (removeP t.entries q) p = hasStrictExt t.entries p :=
          hasStrictExt_remove (by rintro ⟨hc, -⟩; exact hpq hc)
        rw [h1, h2]
      apply extState_of_eq
      unfold delStep
      by_cases hdp : delOK t.entries p = true <;> by_cases hdq : delOK t.entries q = true <;>
        simp [hdp, hdq, hOKp, hOKq, removeP_comm]
  | makeDirectory p =>
    cases b with
    | skip =>
      rw [stepState_skip, stepState_skip]
      exact extState_refl _
    | deletePath q => simp [indepA] at h
    | copyFile q d => simp [indepA] at h
    | makeDirectory q =>
      obtain ⟨hp, hq, hpq, hdpq, hdqp⟩ := h
      have hqp : q ≠ p := fun hh => hpq hh.symm
      simp only [stepState_mkdir hp, stepState_mkdir hq]
      have hfq : findE ((p, Node.dirNode) :: t.entries) q = findE t.entries q := by
        simp [findE, hpq]
      have hfp : findE ((q, Node.dirNode) :: t.entries) p = findE t.entries p := by
        simp [findE, hqp]
      have hparq : parentOkay { t with entries := (p, Node.dirNode) :: t.entries } q
          = parentOkay t q := by
        unfold parentOkay
        by_cases hdl : q.dropLast = []
        · simp [hdl]
        · have : p ≠ q.dropLast := fun hh => hdqp hh.symm
          simp [hdl, findE, this]
      have hparp : parentOkay { t with entries := (q, Node.dirNode) :: t.entries } p
          = parentOkay t p := by
        unfold parentOkay
        by_cases hdl : p.dropLast = []
        · simp [hdl]
        · have : q ≠ p.dropLast := fun hh => hdpq hh.symm
          simp [hdl, findE, this]
      by_cases hcp : findE t.entries p = none ∧ parentOkay t p = true <;>
        by_cases hcq : findE t.entries q = none ∧ parentOkay t q = true
      · rw [show mkdirStep t p = { t with entries := (p, Node.dirNode) :: t.entries }
            from by unfold mkdirStep; rw [if_pos hcp]]
        rw [show mkdirStep t q = { t with entries := (q, Node.dirNode) :: t.entries }
            from by unfold mkdirStep; rw [if_pos hcq]]
        rw [show mkdirStep { t with entries := (p, Node.dirNode) :: t.entries } q
            = { t with entries := (q, Node.dirNode) :: (p, Node.dirNode) :: t.entries }
            from by unfold mkdirStep; rw [if_pos ⟨hfq.trans hcq.1, hparq.trans hcq.2⟩]]
        rw [show mkdirStep { t with entries := (q, Node.dirNode) :: t.entries } p
            = { t with entries := (p, Node.dirNode) :: (q, Node.dirNode) :: t.entries }
            from by unfold mkdirStep; rw [if_pos ⟨hfp.trans hcp.1, hparp.trans hcp.2⟩]]
        refine ⟨rfl, ?_⟩
        intro r
        by_cases h1 : p = r
        · by_cases h2 : q = r
          · exact absurd (h1.trans h2.symm) hpq
          · simp [findE, h1, h2]
        · by_cases h2 : q = r <;> simp [findE, h1, h2]
      · rw [show mkdirStep t p = { t with entries := (p, Node.dirNode) :: t.entries }
            from by unfold mkdirStep; rw [if_pos hcp]]
        have hq2 : ¬(findE ((p, Node.dirNode) :: t.entries) q = none
            ∧ parentOkay { t with entries := (p, Node.dirNode) :: t.entries } q = true) := by
          rw [hfq, hparq]
          exact hcq
        rw [show mkdirStep { t with entries := (p, Node.dirNode) :: t.entries } q
            = { t with entries := (p, Node.dirNode) :: t.entries }
            from by unfold mkdirStep; rw [if_neg hq2]]
        rw [show mkdirStep t q = t from by unfold mkdirStep; rw [if_neg hcq]]
        rw [show mkdirStep t p = { t with entries := (p, Node.dirNode) :: t.entries }
            from by unfold mkdirStep; rw [if_pos hcp]]
        exact extState_refl _
      · have hp2 : ¬(findE ((q, Node.dirNode) :: t.entries) p = none
            ∧ parentOkay { t with entries := (q, Node.dirNode) :: t.entries } p = true) := by
          rw [hfp, hparp]
          exact hcp
        rw [show mkdirStep t p = t from by unfold mkdirStep; rw [if_neg hcp]]
        rw [show mkdirStep t q = { t with entries := (q, Node.dirNode) :: t.entries }
            from by unfold mkdirStep; rw [if_pos hcq]]
        rw [show mkdirStep { t with entries := (q, Node.dirNode) :: t.entries } p
            = { t with entries := (q, Node.dirNode) :: t.entries }
            from by unfold mkdirStep; rw [if_neg hp2]]
        exact extState_refl _
      · have e1 : mkdirStep t p = t := by unfold mkdirStep; rw [if_neg hcp]
        have e2 : mkdirStep t q = t := by unfold mkdirStep; rw [if_neg hcq]
        simp only [e1, e2]
        exact extState_refl t
  | copyFile p dp =>
    cases b with
    | skip =>
      rw [stepState_skip, stepState_skip]
      exact extState_refl _
    | deletePath q => simp [indepA] at h
    | makeDirectory q => simp [indepA] at h
    | copyFile q dq =>
      obtain ⟨hp, hq, hpq, hdpq, hdqp⟩ := h
      have hqp : q ≠ p := fun hh => hpq hh.symm
      simp only [stepState_copy hp, stepState_copy hq]
      have hfq : findE ((p, Node.leafNode dp) :: removeP t.entries p) q
          = findE t.entries q := by
        rw [show findE ((p, Node.leafNode dp) :: removeP t.entries p) q
            = findE (removeP t.entries p) q from by simp [findE, hpq]]
        rw [findE_remove]
        simp [hqp]
      have hfp : findE ((q, Node.leafNode dq) :: removeP t.entries q) p
          = findE t.entries p := by
        rw [show findE ((q, Node.leafNode dq) :: removeP t.entries q) p
            = findE (removeP t.entries q) p from by simp [findE, hqp]]
        rw [findE_remove]
        simp [hpq]
      have hparq : parentOkay
          { t with entries := (p, Node.leafNode dp) :: removeP t.entries p } q
          = parentOkay t q := by
        unfold parentOkay
        by_cases hdl : q.dropLast = []
        · simp [hdl]
        · have h1 : p ≠ q.dropLast := fun hh => hdqp hh.symm
          have h2 : q.dropLast ≠ p := fun hh => h1 hh.symm
          simp only [hdl, if_neg hdl, findE, if_neg h1, findE_remove, if_neg h2]
      have hparp : parentOkay
          { t with entries := (q, Node.leafNode dq) :: removeP t.entries q } p
          = parentOkay t p := by
        unfold parentOkay
        by_cases hdl : p.dropLast = []
        · simp [hdl]
        · have h1 : q ≠ p.dropLast := fun hh => hdpq hh.symm
          have h2 : p.dropLast ≠ q := fun hh => h1 hh.symm
          simp only [hdl, if_neg hdl, findE, if_neg h1, findE_remove, if_neg h2]
      by_cases hcp : findE t.entries p ≠ some Node.dirNode ∧ parentOkay t p = true <;>
        by_cases hcq : findE t.entries q ≠ some Node.dirNode ∧ parentOkay t q = true
      · rw [show copyStep t p dp
            = { t with entries := (p, Node.leafNode dp) :: removeP t.entries p }
            from by unfold copyStep; rw [if_pos hcp]]
        rw [show copyStep t q dq
            = { t with entries := (q, Node.leafNode dq) :: removeP t.entries q }
            from by unfold copyStep; rw [if_pos hcq]]
        rw [show copyStep
              { t with entries := (p, Node.leafNode dp) :: removeP t.entries p } q dq
            = { t with entries := (q, Node.leafNode dq) ::
                removeP ((p, Node.leafNode dp) :: removeP t.entries p) q }
            from by
              unfold copyStep
              rw [if_pos ⟨by rw [hfq]; exact hcq.1, hparq.trans hcq.2⟩]]
        rw [show copyStep
              { t with entries := (q, Node.leafNode dq) :: removeP t.entries q } p dp
            = { t with entries := (p, Node.leafNode dp) ::
                removeP ((q, Node.leafNode dq) :: removeP t.entries q) p }
            from by
              unfold copyStep
              rw [if_pos ⟨by rw [hfp]; exact hcp.1, hparp.trans hcp.2⟩]]
        refine ⟨rfl, ?_⟩
        intro r
        by_cases h1 : p = r
        · by_cases h2 : q = r
          · exact absurd (h1.trans h2.symm) hpq
          · have h1' : r ≠ q := fun hh => h2 hh.symm
            simp only [findE, if_neg h2, if_pos h1, findE_remove, if_neg h1']
        · by_cases h2 : q = r
          · have h2' : r ≠ p := fun hh => h1 hh.symm
            simp only [findE, if_pos h2, if_neg h1, findE_remove, if_neg h2']
          · have h1' : r ≠ p := fun hh => h1 hh.symm
            have h2' : r ≠ q := fun hh => h2 hh.symm
            simp only [findE, if_neg h1, if_neg h2, findE_remove, if_neg h1', if_neg h2']
      · rw [show copyStep t p dp
            = { t with entries := (p, Node.leafNode dp) :: removeP t.entries p }
            from by unfold copyStep; rw [if_pos hcp]]
        have hq2 : ¬(findE ((p, Node.leafNode dp) :: removeP t.entries p) q
              ≠ some Node.dirNode
            ∧ parentOkay
                { t with entries := (p, Node.leafNode dp) :: removeP t.entries p } q
              = true) := by
          rw [hfq, hparq]
          exact hcq
        rw [show copyStep
              { t with entries := (p, Node.leafNode dp) :: removeP t.entries p } q dq
            = { t with entries := (p, Node.leafNode dp) :: removeP t.entries p }
            from by unfold copyStep; rw [if_neg hq2]]
        rw [show copyStep t q dq = t from by unfold copyStep; rw [if_neg hcq]]
        rw [show copyStep t p dp
            = { t with entries := (p, Node.leafNode dp) :: removeP t.entries p }
            from by unfold copyStep; rw [if_pos hcp]]
        exact extState_refl _
      · have hp2 : ¬(findE ((q, Node.leafNode dq) :: removeP t.entries q) p
              ≠ some Node.dirNode
            ∧ parentOkay
                { t with entries := (q, Node.leafNode dq) :: removeP t.entries q } p
              = true) := by
          rw [hfp, hparp]
          exact hcp
        rw [show copyStep t p dp = t from by unfold copyStep; rw [if_neg hcp]]
        rw [show copyStep t q dq
            = { t with entries := (q, Node.leafNode dq) :: removeP t.entries q }
            from by unfold copyStep; rw [if_pos hcq]]
        rw [show copyStep
              { t with entries := (q, Node.leafNode dq) :: removeP t.entries q } p dp
            = { t with entries := (q, Node.leafNode dq) :: removeP t.entries q }
            from by unfold copyStep; rw [if_neg hp2]]
        exact extState_refl _
      · have e1 : copyStep t p dp = t := by unfold copyStep; rw [if_neg hcp]
        have e2 : copyStep t q dq = t := by unfold copyStep; rw [if_neg hcq]
        simp only [e1, e2]
        exact extState_refl t

/-! ### Permuting independent actions of one wave preserves the outcome -/

theorem runState_perm {l₁ l₂ : List Action} (hperm : l₁.Perm l₂) :
    List.Pairwise indepA l₁ → ∀ t, ExtState (runState t l₁) (runState t l₂) := by
  induction hperm with
  | nil =>
    intro _ t
    exact extState_refl _
  | cons a hperm ih =>
    intro hind t
    rw [runState_cons, runState_cons]
    exact ih (List.pairwise_cons.mp hind).2 (stepState t a)
  | swap x y l =>
    intro hind t
    rw [runState_cons, runState_cons, runState_cons, runState_cons]
    have hxy : indepA y x := (List.pairwise_cons.mp hind).1 x (by simp)
    exact runState_ext (stepState_comm hxy) l
  | trans h₁ h₂ ih₁ ih₂ =>
    intro hind t
    have hind₂ := (List.Perm.pairwise_iff (fun hab => indepA_symm hab) h₁).mp hind
    exact extState_trans (ih₁ hind t) (ih₂ hind₂ t)

theorem runWavesState_ext {t₁ t₂ : FsState} (h : ExtState t₁ t₂)
    (ws : List (List Action)) :
    ExtState (runWavesState t₁ ws) (runWavesState t₂ ws) := by
  induction ws generalizing t₁ t₂ with
  | nil => exact h
  | cons w rest ih => exact ih (runState_ext h w)

theorem runWavesState_flatten (ws : List (List Action)) :
    ∀ t, runWavesState t ws = runState t ws.flatten := by
  induction ws with
  | nil =>
    intro t
    rfl
  | cons w rest ih =>
    intro t
    rw [List.flatten_cons, runState_append]
    exact ih (runState t w)

theorem runWaves_perm {ws ws' : List (List Action)}
    (h : List.Forall₂ (fun w w' => w.Perm w') ws ws')
    (hind : ∀ w ∈ ws, List.Pairwise indepA w) :
    ∀ t, ExtState (runWavesState t ws) (runWavesState t ws') := by
  induction h with
  | nil =>
    intro t
    exact extState_refl _
  | @cons w w' l₁ l₂ hw hrest ih =>
    intro t
    have h1 : ExtState (runState t w) (runState t w') :=
      runState_perm hw (hind w (by simp)) t
    exact extState_trans (runWavesState_ext h1 l₁)
      (ih (fun u hu => hind u (List.mem_cons_of_mem _ hu)) (runState t w'))

/-! ### Each wave of a plan consists of pairwise independent actions -/

theorem pairwise_indep_delete_wave {paths : List Path} (hnd : paths.Nodup)
    (hne : ∀ p ∈ paths, p ≠ []) (d : Nat) (hlen : ∀ p ∈ paths, p.length = d) :
    List.Pairwise indepA (paths.map Action.deletePath) := by
  rw [List.pairwise_map]
  refine List.Pairwise.imp_of_mem ?_ hnd
  intro a b ha hb hne'
  refine ⟨hne a ha, hne b hb, ?_, ?_⟩
  · intro hpre
    exact hne' (eq_of_isPre_of_length hpre
      (by rw [hlen a ha, hlen b hb]))
  · intro hpre
    exact hne' (eq_of_isPre_of_length hpre
      (by rw [hlen a ha, hlen b hb])).symm

theorem pairwise_indep_mkdir_wave {paths : List Path} (hnd : paths.Nodup)
    (hne : ∀ p ∈ paths, p ≠ []) (d : Nat) (hlen : ∀ p ∈ paths, p.length = d) :
    List.Pairwise indepA (paths.map Action.makeDirectory) := by
  rw [List.pairwise_map]
  refine List.Pairwise.imp_of_mem ?_ hnd
  intro a b ha hb hne'
  refine ⟨hne a ha, hne b hb, hne', ?_, ?_⟩
  · intro heq
    have h1 : a.dropLast.length < a.length := dropLast_length_lt (hne a ha)
    have h2 := congrArg List.length heq
    rw [hlen a ha] at h1
    rw [hlen b hb] at h2
    omega
  · intro heq
    have h1 : b.dropLast.length < b.length := dropLast_length_lt (hne b hb)
    have h2 := congrArg List.length heq
    rw [hlen b hb] at h1
    rw [hlen a ha] at h2
    omega

theorem pairwise_indep_copy_wave {cs : List (Path × FileData)}
    (hfree : List.Pairwise (fun c c' : Path × FileData =>
      ¬isPre c.1 c'.1 = true ∧ ¬isPre c'.1 c.1 = true) cs)
    (hne : ∀ c ∈ cs, c.1 ≠ []) :
    List.Pairwise indepA (cs.map (fun c => Action.copyFile c.1 c.2)) := by
  rw [List.pairwise_map]
  refine List.Pairwise.imp_of_mem ?_ hfree
  intro c c' hc hc' hfr
  obtain ⟨h1, h2⟩ := hfr
  have hcne : c.1 ≠ c'.1 := fun heq => h1 (heq ▸ isPre_refl c.1)
  refine ⟨hne c hc, hne c' hc', hcne, ?_, ?_⟩
  · intro heq
    exact h2 (heq ▸ isPre_dropLast c.1)
  · intro heq
    exact h1 (heq ▸ isPre_dropLast c'.1)

theorem pairwise_indep_skip_wave (l : List Action) (h : ∀ a ∈ l, a = Action.skip) :
    List.Pairwise indepA l :=
  List.pairwise_of_forall_mem_list (fun a ha b _ => by rw [h a ha]; cases b <;> trivial)

theorem syncWaves_indep (src dst : Snapshot) (strat : ComparisonStrategy)
    (elig : Bool) (hsrc : Wf src) (hdst : Wf dst) :
    ∀ w ∈ syncWaves src dst strat elig, List.Pairwise indepA w := by
  intro w hw
  unfold syncWaves wavesOf at hw
  rw [List.mem_append, List.mem_append, List.mem_append] at hw
  rcases hw with ((hw | hw) | hw) | hw
  · unfold deleteWaves at hw
    rcases List.mem_map.mp hw with ⟨d, _, rfl⟩
    rw [raw_filter_delete]
    apply pairwise_indep_delete_wave ((nodup_allPaths _ _).filter _ |>.filter _) ?_ d ?_
    · intro p hp
      have hp' := (List.mem_filter.mp hp).1
      obtain ⟨m, hm⟩ := delConds_dst (mem_delPaths.mp hp')
      exact wf_ne_nil hdst (mem_of_findE hm)
    · intro p hp
      have := (List.mem_filter.mp hp).2
      simpa using this
  · unfold mkdirWaves at hw
    rcases List.mem_map.mp hw with ⟨d, _, rfl⟩
    rw [raw_filter_mkdir]
    apply pairwise_indep_mkdir_wave ((nodup_allPaths _ _).filter _ |>.filter _) ?_ d ?_
    · intro p hp
      have hp' := (List.mem_filter.mp hp).1
      exact wf_ne_nil hsrc (mem_of_findE (mkConds_src (mem_mkPaths.mp hp')))
    · intro p hp
      have := (List.mem_filter.mp hp).2
      simpa using this
  · rw [List.mem_singleton] at hw
    subst hw
    rw [raw_filter_copy]
    apply pairwise_indep_copy_wave (copyPairs_free hsrc)
    intro c hc
    obtain ⟨p, fd⟩ := c
    exact wf_ne_nil hsrc (mem_of_findE (copyActOf_src (mem_copyPairs.mp hc)))
  · rw [List.mem_singleton] at hw
    subst hw
    exact pairwise_indep_skip_wave _ (fun a ha => mem_filter_skip ha)

theorem deleteAllWaves_indep (dst : FsState) (hdst : Wf dst.entries) :
    ∀ w ∈ deleteAllWaves dst, List.Pairwise indepA w := by
  intro w hw
  unfold deleteAllWaves at hw
  rw [List.mem_append] at hw
  rcases hw with hw | hw
  · unfold deleteWaves at hw
    rcases List.mem_map.mp hw with ⟨d, _, rfl⟩
    rw [List.filter_map]
    apply pairwise_indep_delete_wave (hdst.1.filter _) ?_ d ?_
    · intro p hp
      have hp' := (List.mem_filter.mp hp).1
      obtain ⟨m, hm⟩ := mem_keysOf_iff.mp hp'
      exact wf_ne_nil hdst hm
    · intro p hp
      have := (List.mem_filter.mp hp).2
      simp only [Function.comp_apply, isDeleteA, actionDepth, actionPath,
        Bool.true_and, decide_eq_true_eq] at this
      exact this
  · rw [List.mem_singleton] at hw
    subst hw
    exact List.pairwise_singleton _ _

/-! ### Claim C6: Sequential and Parallel modes agree -/

/-- C6: for each of the three operations (copy, synchronize, delete), any
input trees and any flag set, executing the plan's dependency waves with the
actions of each wave in an arbitrary order (Parallel mode) produces a final
tree state identical — as a path-to-entry map — to the state the core
operation computes by running the plan sequentially in order. -/
theorem claim_C6_seq_par_equiv (src : Snapshot) (dst : FsState)
    (flags : List Flag) (hsrc : Wf src) (hdst : Wf dst.entries) :
    (∀ ws', List.Forall₂ (fun w w' => w.Perm w')
        (syncWaves src dst.entries (strategyOf flags) false) ws' →
      ExtState (runWavesState dst ws') (core.copy src dst flags).1)
    ∧ (∀ ws', List.Forall₂ (fun w w' => w.Perm w')
        (syncWaves src dst.entries (strategyOf flags)
          (if Flag.noDelete ∈ flags then false else true)) ws' →
      ExtState (runWavesState dst ws') (core.synchronize src dst flags).1)
    ∧ ∀ ws', List.Forall₂ (fun w w' => w.Perm w') (deleteAllWaves dst) ws' →
      ExtState (runWavesState dst ws') (core.delete dst flags).1 := by
  refine ⟨?_, ?_, ?_⟩
  · intro ws' hperm
    have h1 := runWaves_perm hperm
      (syncWaves_indep src dst.entries (strategyOf flags) false hsrc hdst) dst
    have h2 : runWavesState dst (syncWaves src dst.entries (strategyOf flags) false)
        = (core.copy src dst flags).1 := by
      rw [runWavesState_flatten]
      rfl
    rw [h2] at h1
    exact extState_symm h1
  · intro ws' hperm
    have h1 := runWaves_perm hperm
      (syncWaves_indep src dst.entries (strategyOf flags)
        (if Flag.noDelete ∈ flags then false else true) hsrc hdst) dst
    have h2 : runWavesState dst (syncWaves src dst.entries (strategyOf flags)
          (if Flag.noDelete ∈ flags then false else true))
        = (core.synchronize src dst flags).1 := by
      rw [runWavesState_flatten]
      rfl
    rw [h2] at h1
    exact extState_symm h1
  · intro ws' hperm
    have h1 := runWaves_perm hperm (deleteAllWaves_indep dst hdst) dst
    have h2 : runWavesState dst (deleteAllWaves dst) = (core.delete dst flags).1 := by
      rw [runWavesState_flatten]
      rfl
    rw [h2] at h1
    exact extState_symm h1

/-- Witness for C6 with each wave reversed. -/
theorem claim_C6_witness :
    ExtState (runWavesState dstSample
        ((syncWaves srcSample dstSample.entries (strategyOf []) false).map
          List.reverse))
      (core.copy srcSample dstSample []).1
    ∧ ExtState (runWavesState dstSample
        ((syncWaves srcSample dstSample.entries (strategyOf [])
          (if Flag.noDelete ∈ ([] : List Flag) then false else true)).map
          List.reverse))
      (core.synchronize srcSample dstSample []).1
    ∧ ExtState (runWavesState dstSample ((deleteAllWaves dstSample).map List.reverse))
      (core.delete dstSample []).1 :=
  ⟨(claim_C6_seq_par_equiv srcSample dstSample [] (by decide) (by decide)).1 _
      (by decide),
    (claim_C6_seq_par_equiv srcSample dstSample [] (by decide) (by decide)).2.1 _
      (by decide),
    (claim_C6_seq_par_equiv srcSample dstSample [] (by decide) (by decide)).2.2 _
      (by decide)⟩

/-! ### The Delete command empties and removes the destination -/

theorem deleteWaves_keys (E : Snapshot) :
    (deleteWaves ((keysOf E).map Action.deletePath)).flatten
      = (lenSortDesc (keysOf E)
          (maxDepth ((keysOf E).map Action.deletePath))).map Action.deletePath := by
  unfold deleteWaves lenSortDesc
  rw [List.map_flatten, List.map_map]
  congr 1
  apply List.map_congr_left
  intro d _
  rw [List.filter_map]
  congr 1

theorem keys_length_le (E : Snapshot) {p : Path} (hp : p ∈ keysOf E) :
    p.length ≤ maxDepth ((keysOf E).map Action.deletePath) := by
  have := depth_le_maxDepth (List.mem_map_of_mem Action.deletePath hp)
  simpa [actionDepth, actionPath] using this

theorem delete_char (dst : FsState) (hdst : Wf dst.entries)
    (hroot : dst.rootExists = true) :
    (runState dst (deleteAllPlan dst)).rootExists = false
    ∧ (runState dst (deleteAllPlan dst)).entries = []
    ∧ runFails dst (deleteAllPlan dst) = [] := by
  have hplan : deleteAllPlan dst
      = (lenSortDesc (keysOf dst.entries)
          (maxDepth ((keysOf dst.entries).map Action.deletePath))).map
            Action.deletePath
        ++ [Action.deletePath []] := by
    unfold deleteAllPlan deleteAllWaves
    rw [List.flatten_append, deleteWaves_keys]
    simp
  set ds := lenSortDesc (keysOf dst.entries)
    (maxDepth ((keysOf dst.entries).map Action.deletePath)) with hds
  have hmemiff : ∀ p, p ∈ ds ↔ p ∈ keysOf dst.entries := fun p =>
    mem_lenSortDesc (fun q hq => keys_length_le dst.entries hq)
  obtain ⟨hr1, hent1, hf1⟩ := run_deletes_sorted ds dst
    (fun p hp => by
      obtain ⟨m, hm⟩ := mem_keysOf_iff.mp ((hmemiff p).mp hp)
      exact wf_ne_nil hdst hm)
    (nodup_lenSortDesc hdst.1)
    (pairwise_lenSortDesc _ _)
    (fun p hp => findE_isSome_iff_mem_keys.mpr ((hmemiff p).mp hp))
    (fun p _ q m hqm _ _ => (hmemiff q).mpr (List.mem_map_of_mem Prod.fst hqm))
  have hempty : (runState dst (ds.map Action.deletePath)).entries = [] := by
    rw [hent1]
    rw [List.eq_nil_iff_forall_not_mem]
    intro e he
    have h1 := List.mem_filter.mp he
    have h2 : e.1 ∈ ds := (hmemiff e.1).mpr (List.mem_map_of_mem Prod.fst h1.1)
    have h3 := h1.2
    simp only [decide_eq_true_eq] at h3
    exact h3 h2
  have happ : applyAction (runState dst (ds.map Action.deletePath))
      (Action.deletePath []) = .ok { rootExists := false, entries := [] } := by
    have hroot1 : (runState dst (ds.map Action.deletePath)).rootExists = true :=
      hr1.trans hroot
    simp [applyAction, hroot1, hempty]
  refine ⟨?_, ?_, ?_⟩
  · rw [hplan, runState_append,
      show runState (runState dst (ds.map Action.deletePath)) [Action.deletePath []]
        = stepState (runState dst (ds.map Action.deletePath)) (Action.deletePath [])
        from rfl,
      stepState_ok happ]
  · rw [hplan, runState_append,
      show runState (runState dst (ds.map Action.deletePath)) [Action.deletePath []]
        = stepState (runState dst (ds.map Action.deletePath)) (Action.deletePath [])
        from rfl,
      stepState_ok happ]
  · rw [hplan, runFails_append, hf1, List.nil_append, runFails_cons_ok happ]
    rfl

/-! ### Claim C5: delete removes the destination entirely -/

/-- C5: after `delete` completes with every action succeeding, the
destination no longer exists — the root existence check fails and no path
lookup succeeds — and the same holds when the plan's dependency waves run
with their actions in an arbitrary order (Parallel mode). -/
theorem claim_C5_delete_removes (dst : FsState) (flags : List Flag)
    (hdst : Wf dst.entries) (hroot : dst.rootExists = true)
    (_hsucc : (core.delete dst flags).2 = []) :
    (core.delete dst flags).1.rootExists = false
    ∧ (∀ p, findE (core.delete dst flags).1.entries p = none)
    ∧ ∀ ws', List.Forall₂ (fun w w' => w.Perm w') (deleteAllWaves dst) ws' →
        (runWavesState dst ws').rootExists = false
        ∧ ∀ p, findE (runWavesState dst ws').entries p = none := by
  obtain ⟨h1, h2, _⟩ := delete_char dst hdst hroot
  have hfst : (core.delete dst flags).1 = runState dst (deleteAllPlan dst) := rfl
  refine ⟨by rw [hfst]; exact h1, ?_, ?_⟩
  · intro p
    rw [hfst, h2]
    rfl
  · intro ws' hperm
    have hext := runWaves_perm hperm (deleteAllWaves_indep dst hdst) dst
    have heq : runWavesState dst (deleteAllWaves dst)
        = runState dst (deleteAllPlan dst) := by
      rw [runWavesState_flatten]
      rfl
    rw [heq] at hext
    constructor
    · rw [← hext.1, h1]
    · intro p
      rw [← hext.2 p, h2]
      rfl

/-- Witness for C5 at the concrete sample destination, with the parallel
part instantiated at the reversed waves and the path `a`. -/
theorem claim_C5_witness :
    (core.delete dstSample []).1.rootExists = false
    ∧ findE (core.delete dstSample []).1.entries ["a"] = none
    ∧ (runWavesState dstSample ((deleteAllWaves dstSample).map List.reverse)).rootExists
        = false
    ∧ findE (runWavesState dstSample
        ((deleteAllWaves dstSample).map List.reverse)).entries ["a"] = none :=
  ⟨(claim_C5_delete_removes dstSample [] (by decide) rfl rfl).1,
    (claim_C5_delete_removes dstSample [] (by decide) rfl rfl).2.1 ["a"],
    ((claim_C5_delete_removes dstSample [] (by decide) rfl rfl).2.2 _ (by decide)).1,
    ((claim_C5_delete_removes dstSample [] (by decide) rfl rfl).2.2 _
      (by decide)).2 ["a"]⟩

/-! ### Claim C7: the plan honors the ordering invariants -/

theorem orderOK_not_createA_not_delB {a b : Action}
    (h1 : ∀ p, a ≠ Action.makeDirectory p) (h2 : ∀ p d, a ≠ Action.copyFile p d)
    (h3 : ∀ p, b ≠ Action.deletePath p) : orderOK a b := by
  constructor
  · intro q _ p hp
    rcases hp with hp | ⟨d, hp⟩
    · exact absurd hp (h1 p)
    · exact absurd hp (h2 p d)
  · intro p q _ hb'
    exact absurd hb' (h3 q)

theorem orderOK_b_not_mkdir_a_not_del {a b : Action}
    (h1 : ∀ q, b ≠ Action.makeDirectory q) (h2 : ∀ p, a ≠ Action.deletePath p) :
    orderOK a b := by
  constructor
  · intro q hb
    exact absurd hb (h1 q)
  · intro p q ha' _
    exact absurd ha' (h2 p)

/-- C7: every plan the Tree Walker produces is ordered so that an action
creating or writing strictly below a directory comes after that directory's
creation, and the deletion of a directory comes after the deletions of all
its descendants; the Delete command's plan satisfies the same deletion
invariant, with the destination root deleted last. -/
theorem claim_C7_plan_ordering (src dst : Snapshot) (strat : ComparisonStrategy)
    (elig : Bool) (t : FsState) :
    List.Pairwise orderOK (syncPlan src dst strat elig)
    ∧ List.Pairwise orderOK (deleteAllPlan t) := by
  constructor
  · rw [syncPlan_eq, List.pairwise_append]
    refine ⟨?_, ?_, ?_⟩
    · rw [List.pairwise_map]
      refine (pairwise_lenSortDesc _ _).imp ?_
      intro p q hlen
      constructor
      · intro q' hb
        simp at hb
      · intro p' q' ha hb
        injection ha with ha
        injection hb with hb
        subst ha
        subst hb
        rintro ⟨hpre, hne⟩
        have := length_lt_of_isPre_ne hpre hne
        omega
    · rw [List.pairwise_append]
      refine ⟨?_, ?_, ?_⟩
      · rw [List.pairwise_map]
        refine (pairwise_lenSortAsc _ _).imp ?_
        intro p q hlen
        constructor
        · intro q' hb p' hp'
          injection hb with hb
          rcases hp' with hp' | ⟨d, hp'⟩
          · injection hp' with hp'
            subst hb
            subst hp'
            rintro ⟨hpre, hne⟩
            have := length_lt_of_isPre_ne hpre hne
            omega
          · simp at hp'
        · intro p' q' ha _
          simp at ha
      · rw [List.pairwise_append]
        refine ⟨?_, ?_, ?_⟩
        · apply List.pairwise_of_forall_mem_list
          intro a ha b hb
          rcases List.mem_map.mp ha with ⟨c, _, rfl⟩
          rcases List.mem_map.mp hb with ⟨c', _, rfl⟩
          exact orderOK_b_not_mkdir_a_not_del (fun q h => by simp at h)
            (fun p h => by simp at h)
        · apply List.pairwise_of_forall_mem_list
          intro a ha b hb
          rw [mem_filter_skip ha, mem_filter_skip hb]
          exact orderOK_b_not_mkdir_a_not_del (fun q h => by simp at h)
            (fun p h => by simp at h)
        · intro a ha b hb
          rcases List.mem_map.mp ha with ⟨c, _, rfl⟩
          rw [mem_filter_skip hb]
          exact orderOK_b_not_mkdir_a_not_del (fun q h => by simp at h)
            (fun p h => by simp at h)
      · intro a ha b hb
        rcases List.mem_map.mp ha with ⟨p, _, rfl⟩
        rw [List.mem_append] at hb
        rcases hb with hb | hb
        · rcases List.mem_map.mp hb with ⟨c, _, rfl⟩
          exact orderOK_b_not_mkdir_a_not_del (fun q h => by simp at h)
            (fun q h => by simp at h)
        · rw [mem_filter_skip hb]
          exact orderOK_b_not_mkdir_a_not_del (fun q h => by simp at h)
            (fun q h => by simp at h)
    · intro a ha b hb
      rcases List.mem_map.mp ha with ⟨p, _, rfl⟩
      rw [List.mem_append] at hb
      rcases hb with hb | hb
      · rcases List.mem_map.mp hb with ⟨q, _, rfl⟩
        exact orderOK_not_createA_not_delB (fun q' h => by simp at h)
          (fun q' d h => by simp at h) (fun q' h => by simp at h)
      · rw [List.mem_append] at hb
        rcases hb with hb | hb
        · rcases List.mem_map.mp hb with ⟨c, _, rfl⟩
          exact orderOK_not_createA_not_delB (fun q' h => by simp at h)
            (fun q' d h => by simp at h) (fun q' h => by simp at h)
        · rw [mem_filter_skip hb]
          exact orderOK_not_createA_not_delB (fun q' h => by simp at h)
            (fun q' d h => by simp at h) (fun q' h => by simp at h)
  · have hplan : deleteAllPlan t
        = (lenSortDesc (keysOf t.entries)
            (maxDepth ((keysOf t.entries).map Action.deletePath))).map
              Action.deletePath
          ++ [Action.deletePath []] := by
      unfold deleteAllPlan deleteAllWaves
      rw [List.flatten_append, deleteWaves_keys]
      simp
    rw [hplan, List.pairwise_append]
    refine ⟨?_, List.pairwise_singleton _ _, ?_⟩
    · rw [List.pairwise_map]
      refine (pairwise_lenSortDesc _ _).imp ?_
      intro p q hlen
      constructor
      · intro q' hb
        simp at hb
      · intro p' q' ha hb
        injection ha with ha
        injection hb with hb
        subst ha
        subst hb
        rintro ⟨hpre, hne⟩
        have := length_lt_of_isPre_ne hpre hne
        omega
    · intro a ha b hb
      rcases List.mem_map.mp ha with ⟨p, _, rfl⟩
      rw [List.mem_singleton] at hb
      subst hb
      constructor
      · intro q' hbeq
        simp at hbeq
      · intro p' q' haeq hbeq
        injection haeq with haeq
        injection hbeq with hbeq
        subst haeq
        subst hbeq
        rintro ⟨hpre, hne⟩
        cases p with
        | nil => exact hne rfl
        | cons x xs => simp [isPre] at hpre

end LuminS
